import Mathlib

/-
Verification development for the Tine real-time pitch-detection core.

The development shallowly embeds the C++ sources:

  * src/native/cpp/YinPitchDetector.cpp      (namespace Cpp below)
  * src/src/native/dsp/YinPitchDetector.cpp  (namespace Dsp below)
  * src/native/cpp/FloatRingBuffer.hpp       (namespace Ring below)
  * src/android/app/src/main/cpp/PitchDetector.cpp (namespace Ctrl below)

Embedding conventions: float and double arithmetic is modelled exactly over
the rationals (the float to double conversions in the sources are exact, and
the claims under study are about the algorithmic structure, not about rounding
of individual IEEE operations); size_t counters are modelled as unbounded
naturals, faithful as long as the 64-bit counters do not wrap, and the ring
buffer masking is modelled with the bitwise and operation exactly as written;
C++ ints are modelled as integers with truncating division and remainder
(Int.tdiv, Int.tmod); a const float pointer that may be null is modelled as an
Option of a list of samples; the while loops of the lag search are modelled by
structurally recursive functions on an explicit iteration count equal to the
number of loop iterations remaining, which is exactly the bound the C++ loop
conditions enforce.  The midi value 69 + 12 * log2(frequency / 440) is not a
rational number in general; the note-name stage noteNameFromMidi is therefore
modelled as a function of the already rounded midi value, which is the only
part of its argument it reads (the call sites pass nearestMidi = round(midi),
and for a 440 Hz detection round(midi) = round(69 + 12 * log2 1) = 69).
-/

/-- emptyString stands for the default string used with List.getD. -/
def emptyString : String := ""

/-- sharp builds the sharpened spelling of a natural note name, so the two
note tables below hold exactly the twelve strings of the sources. -/
def sharp (base : String) : String := base ++ "#"

namespace Cpp

/-- clamp from the anonymous namespace of src/native/cpp/YinPitchDetector.cpp:
std::min(std::max(value, min), max). -/
def clamp (value lo hi : ℚ) : ℚ := min (max value lo) hi

/-- NOTE_NAMES from src/native/cpp/YinPitchDetector.cpp: the chromatic names
C, C#, D, D#, E, F, F#, G, G#, A, A#, B in this order. -/
def NOTE_NAMES : List String :=
  ["C", sharp "C", "D", sharp "D", "E", "F",
   sharp "F", "G", sharp "G", "A", sharp "A", "B"]

/-- noteNameFromMidi from src/native/cpp/YinPitchDetector.cpp, as a function of
the already rounded midi value: noteIndex = ((midiInt % 12) + 12) % 12 with C++
truncating remainder, then NOTE_NAMES[noteIndex % NOTE_NAMES_COUNT].  Note that
no octave is appended in this copy. -/
def noteNameFromMidi (midiInt : ℤ) : String :=
  let noteIndex := (midiInt.tmod 12 + 12).tmod 12
  NOTE_NAMES.getD (noteIndex.tmod 12).toNat emptyString

/-- computeDifference from src/native/cpp/YinPitchDetector.cpp: the value the
loop body stores in m_difference[tau].  The inner loop runs i from 0 to
bufferSize - tau - 1 accumulating delta * delta; m_difference[0] is 0. -/
def difference (x : List ℚ) (N : ℕ) (τ : ℕ) : ℚ :=
  if τ = 0 then 0
  else
    List.foldl
      (fun sum i =>
        let delta := x.getD i 0 - x.getD (i + τ) 0
        sum + delta * delta)
      0 (List.range (N - τ))

/-- runningSum after processing lags 1..τ in computeCumulativeMeanNormalized
of src/native/cpp/YinPitchDetector.cpp. -/
def runningSum (d : ℕ → ℚ) : ℕ → ℚ
  | 0 => 0
  | τ + 1 => runningSum d τ + d (τ + 1)

/-- computeCumulativeMeanNormalized from src/native/cpp/YinPitchDetector.cpp:
the value stored in m_cumulative[tau]. -/
def cumulative (d : ℕ → ℚ) (τ : ℕ) : ℚ :=
  if τ = 0 then 1
  else if runningSum d τ = 0 then 1
  else d τ * (τ : ℚ) / runningSum d τ

/-- descendAux models the inner while loop of absoluteThreshold in
src/native/cpp/YinPitchDetector.cpp: while (tau + 1 < size and c(tau+1) < c(tau))
tau is incremented.  The fuel argument is the number of remaining slots
maxLag - tau, so the loop guard tau + 1 < size is exactly fuel > 0. -/
def descendAux (c : ℕ → ℚ) (τ : ℕ) : ℕ → ℕ
  | 0 => τ
  | fuel + 1 => if c (τ + 1) < c τ then descendAux c (τ + 1) fuel else τ

/-- searchAux models the first for loop of absoluteThreshold in
src/native/cpp/YinPitchDetector.cpp, scanning tau upward while fuel iterations
remain; on the first tau with c(tau) < threshold it descends to the local
minimum and returns it. -/
def searchAux (c : ℕ → ℚ) (threshold : ℚ) (maxLag τ : ℕ) : ℕ → Option ℕ
  | 0 => none
  | fuel + 1 =>
    if c τ < threshold then some (descendAux c τ (maxLag - τ))
    else searchAux c threshold maxLag (τ + 1) fuel

/-- minAux models the fallback loop of absoluteThreshold in
src/native/cpp/YinPitchDetector.cpp: candidate and minValue track the argmin
and minimum of c over the scanned range, with minValue starting at infinity
(modelled as none, since every rational is below infinity the first comparison
always updates). -/
def minAux (c : ℕ → ℚ) (τ candidate : ℕ) (minValue : Option ℚ) : ℕ → ℕ × Option ℚ
  | 0 => (candidate, minValue)
  | fuel + 1 =>
    match minValue with
    | none => minAux c (τ + 1) τ (some (c τ)) fuel
    | some m =>
      if c τ < m then minAux c (τ + 1) τ (some (c τ)) fuel
      else minAux c (τ + 1) candidate (some m) fuel

/-- absoluteThreshold from src/native/cpp/YinPitchDetector.cpp.  Both loops
scan tau from 2 while tau < m_cumulative.size() = maxLag + 1, hence the fuel
maxLag + 1 - 2.  Returns the chosen lag and the probability written through
the out parameter; in exact arithmetic minValue is non-finite exactly when the
scanned range is empty, in which case probability is 0 and candidate 0. -/
def absoluteThreshold (c : ℕ → ℚ) (threshold : ℚ) (maxLag : ℕ) : ℕ × ℚ :=
  match searchAux c threshold maxLag 2 (maxLag + 1 - 2) with
  | some τ => (τ, 1 - c τ)
  | none =>
    match minAux c 2 0 none (maxLag + 1 - 2) with
    | (candidate, some minValue) => (candidate, 1 - minValue)
    | (_, none) => (0, 0)

/-- parabolicInterpolation from src/native/cpp/YinPitchDetector.cpp; values is
the cumulative buffer and size its length maxLag + 1. -/
def parabolicInterpolation (values : ℕ → ℚ) (size τ : ℕ) : ℚ :=
  if τ = 0 ∨ τ + 1 ≥ size then (τ : ℚ)
  else
    let y0 := values (τ - 1)
    let y1 := values τ
    let y2 := values (τ + 1)
    let denominator := y0 - 2 * y1 + y2
    if |denominator| < 1 / 10 ^ 12 then (τ : ℚ)
    else (τ : ℚ) + (y0 - y2) / (2 * denominator)

/-- PitchOutcome carries the fields of PitchResult that are defined by exact
rational arithmetic (isValid, frequency, probability).  The midi, cents and
noteName fields require log2 and are treated by noteNameFromMidi separately. -/
structure PitchOutcome where
  isValid : Bool
  frequency : ℚ
  probability : ℚ
deriving DecidableEq

/-- cumulativeOf is the cumulative buffer computed by processBuffer for a
frame x of declared length N. -/
def cumulativeOf (x : List ℚ) (N : ℕ) : ℕ → ℚ := fun τ => cumulative (difference x N) τ

/-- tauProb is the pair (tau, probability) produced by the absoluteThreshold
call inside processBuffer of src/native/cpp/YinPitchDetector.cpp. -/
def tauProb (x : List ℚ) (N : ℕ) (threshold : ℚ) : ℕ × ℚ :=
  absoluteThreshold (cumulativeOf x N) threshold (N / 2)

/-- refinedTau is the refined lag computed by processBuffer: parabolic
interpolation when 1 < tau < maxLag, the raw tau otherwise. -/
def refinedTau (x : List ℚ) (N : ℕ) (threshold : ℚ) : ℚ :=
  let τ := (tauProb x N threshold).1
  if 1 < τ ∧ τ < N / 2 then parabolicInterpolation (cumulativeOf x N) (N / 2 + 1) τ
  else (τ : ℚ)

/-- emptyOutcome is the value-initialized PitchResult with isValid = false
returned on every rejection path of processBuffer. -/
def emptyOutcome : PitchOutcome := ⟨false, 0, 0⟩

/-- processBuffer from src/native/cpp/YinPitchDetector.cpp, restricted to the
exact-arithmetic fields.  The null samples pointer is the none case; the frame
length check, the maxLag and sampleRate guards, the tau = 0 sentinel check,
the refinedTau and frequency checks and the final result assembly follow the
source line by line (frequency is always finite over the rationals, so the
std::isfinite test cannot fire in the embedding). -/
def processBuffer (sampleRate : ℚ) (bufferSize : ℕ) (threshold : ℚ)
    (samples : Option (List ℚ)) : PitchOutcome :=
  match samples with
  | none => emptyOutcome
  | some x =>
    if x.length < bufferSize ∨ bufferSize / 2 < 2 ∨ sampleRate ≤ 0 then emptyOutcome
    else if (tauProb x bufferSize threshold).1 = 0 then emptyOutcome
    else if refinedTau x bufferSize threshold ≤ 0 then emptyOutcome
    else if sampleRate / refinedTau x bufferSize threshold ≤ 0 then emptyOutcome
    else
      { isValid := decide (0 < (tauProb x bufferSize threshold).2)
        frequency := sampleRate / refinedTau x bufferSize threshold
        probability := clamp (tauProb x bufferSize threshold).2 0 1 }

end Cpp

namespace Dsp

/-- kNoteNames from src/src/native/dsp/YinPitchDetector.cpp: the same twelve
chromatic names as the other copy, in the same order. -/
def kNoteNames : List String :=
  ["C", sharp "C", "D", sharp "D", "E", "F",
   sharp "F", "G", sharp "G", "A", sharp "A", "B"]

/-- noteNameFromMidi from src/src/native/dsp/YinPitchDetector.cpp, as a
function of the already rounded midi value: noteIndex as in the other copy,
octave = roundedMidi / 12 - 1 with C++ truncating division, and the octave is
appended to the name through the ostringstream. -/
def noteNameFromMidi (roundedMidi : ℤ) : String :=
  let noteIndex := (roundedMidi.tmod 12 + 12).tmod 12
  let octave := roundedMidi.tdiv 12 - 1
  kNoteNames.getD noteIndex.toNat emptyString ++ toString octave

/-- computeDifference from src/src/native/dsp/YinPitchDetector.cpp (the loop
body is token for token the one of the other copy). -/
def difference (x : List ℚ) (N : ℕ) (τ : ℕ) : ℚ :=
  if τ = 0 then 0
  else
    List.foldl
      (fun sum i =>
        let delta := x.getD i 0 - x.getD (i + τ) 0
        sum + delta * delta)
      0 (List.range (N - τ))

/-- runningSum of computeCumulativeMeanNormalized in
src/src/native/dsp/YinPitchDetector.cpp. -/
def runningSum (d : ℕ → ℚ) : ℕ → ℚ
  | 0 => 0
  | τ + 1 => runningSum d τ + d (τ + 1)

/-- computeCumulativeMeanNormalized from
src/src/native/dsp/YinPitchDetector.cpp. -/
def cumulative (d : ℕ → ℚ) (τ : ℕ) : ℚ :=
  if τ = 0 then 1
  else if runningSum d τ = 0 then 1
  else d τ * (τ : ℚ) / runningSum d τ

/-- descendAux models the inner while loop of absoluteThreshold in
src/src/native/dsp/YinPitchDetector.cpp. -/
def descendAux (c : ℕ → ℚ) (τ : ℕ) : ℕ → ℕ
  | 0 => τ
  | fuel + 1 => if c (τ + 1) < c τ then descendAux c (τ + 1) fuel else τ

/-- searchAux models the first for loop of absoluteThreshold in
src/src/native/dsp/YinPitchDetector.cpp. -/
def searchAux (c : ℕ → ℚ) (threshold : ℚ) (maxLag τ : ℕ) : ℕ → Option ℕ
  | 0 => none
  | fuel + 1 =>
    if c τ < threshold then some (descendAux c τ (maxLag - τ))
    else searchAux c threshold maxLag (τ + 1) fuel

/-- minAux models the fallback loop of absoluteThreshold in
src/src/native/dsp/YinPitchDetector.cpp (the candidate variable is declared
before the first loop in this copy, which does not change its value flow). -/
def minAux (c : ℕ → ℚ) (τ candidate : ℕ) (minValue : Option ℚ) : ℕ → ℕ × Option ℚ
  | 0 => (candidate, minValue)
  | fuel + 1 =>
    match minValue with
    | none => minAux c (τ + 1) τ (some (c τ)) fuel
    | some m =>
      if c τ < m then minAux c (τ + 1) τ (some (c τ)) fuel
      else minAux c (τ + 1) candidate (some m) fuel

/-- absoluteThreshold from src/src/native/dsp/YinPitchDetector.cpp. -/
def absoluteThreshold (c : ℕ → ℚ) (threshold : ℚ) (maxLag : ℕ) : ℕ × ℚ :=
  match searchAux c threshold maxLag 2 (maxLag + 1 - 2) with
  | some τ => (τ, 1 - c τ)
  | none =>
    match minAux c 2 0 none (maxLag + 1 - 2) with
    | (candidate, some minValue) => (candidate, 1 - minValue)
    | (_, none) => (0, 0)

/-- parabolicInterpolation from src/src/native/dsp/YinPitchDetector.cpp:
the guard is tau >= values.size() - 1 (with size_t subtraction; size is
maxLag + 1 >= 1 at every call site, where it agrees with the natural
subtraction used here), the denominator test is an exact comparison with zero,
and the adjustment is 0.5 * (s0 - s2) / denominator. -/
def parabolicInterpolation (values : ℕ → ℚ) (size τ : ℕ) : ℚ :=
  if τ = 0 ∨ τ ≥ size - 1 then (τ : ℚ)
  else
    let s0 := values (τ - 1)
    let s1 := values τ
    let s2 := values (τ + 1)
    let denominator := (s0 + s2) - 2 * s1
    if denominator = 0 then (τ : ℚ)
    else (τ : ℚ) + 1 / 2 * (s0 - s2) / denominator

end Dsp

namespace Ring

/-- RingState models the fields of FloatRingBuffer from
src/native/cpp/FloatRingBuffer.hpp: the fixed capacity, the index mask, the
sample storage (only indices below capacity are ever touched) and the two
monotonically increasing cursors. -/
structure RingState where
  capacity : ℕ
  mask : ℕ
  buf : ℕ → ℚ
  writeIndex : ℕ
  readIndex : ℕ

/-- nptLoop models the while loop of nextPowerOfTwo: while v < value the value
v is doubled.  The fuel bound value is enough iterations for the loop to reach
its exit condition, since v doubles from 1 and 2 ^ value >= value. -/
def nptLoop (value : ℕ) : ℕ → ℕ → ℕ
  | 0, v => v
  | fuel + 1, v => if v < value then nptLoop value fuel (v * 2) else v

/-- nextPowerOfTwo from src/native/cpp/FloatRingBuffer.hpp: value 0 is bumped
to 1, v starts at 1 and doubles until it reaches value (the early return for
v >= value coincides with the loop exiting immediately). -/
def nextPowerOfTwo (value : ℕ) : ℕ :=
  let value := if value = 0 then 1 else value
  nptLoop value value 1

/-- mkRing models the FloatRingBuffer constructor: capacity rounded up to a
power of two, mask = capacity - 1, zero-filled storage, both cursors 0. -/
def mkRing (capacityFrames : ℕ) : RingState :=
  let cap := nextPowerOfTwo capacityFrames
  ⟨cap, cap - 1, fun _ => 0, 0, 0⟩

/-- writeLoop models the copy loop of write: after n iterations the samples
data[0..n-1] have been stored at indices (localWrite + i) masked with m_mask. -/
def writeLoop (mask start : ℕ) (data : List ℚ) (buf : ℕ → ℚ) : ℕ → (ℕ → ℚ)
  | 0 => buf
  | n + 1 =>
    let prev := writeLoop mask start data buf n
    fun i => if i = (start + n) &&& mask then data.getD n 0 else prev i

/-- write from src/native/cpp/FloatRingBuffer.hpp.  The null data pointer is
the none case; available is capacity - (writeIndex - readIndex); toWrite is
frames bounded by available; the write cursor advances by the number written. -/
def write (st : RingState) (data : Option (List ℚ)) (frames : ℕ) : ℕ × RingState :=
  match data with
  | none => (0, st)
  | some d =>
    if frames = 0 then (0, st)
    else
      let available := st.capacity - (st.writeIndex - st.readIndex)
      let toWrite := if frames > available then available else frames
      if toWrite = 0 then (0, st)
      else
        (toWrite,
         { st with
           buf := writeLoop st.mask st.writeIndex d st.buf toWrite
           writeIndex := st.writeIndex + toWrite })

/-- read from src/native/cpp/FloatRingBuffer.hpp.  The null destination
pointer is modelled by the dstNull flag; the copied samples are returned as a
list in copy order; the read cursor advances by the number read. -/
def read (st : RingState) (dstNull : Bool) (frames : ℕ) : ℕ × List ℚ × RingState :=
  if dstNull then (0, [], st)
  else if frames = 0 then (0, [], st)
  else
    let available := st.writeIndex - st.readIndex
    let toRead := if frames > available then available else frames
    if toRead = 0 then (0, [], st)
    else
      (toRead,
       (List.range toRead).map (fun r => st.buf ((st.readIndex + r) &&& st.mask)),
       { st with readIndex := st.readIndex + toRead })

/-- reset from src/native/cpp/FloatRingBuffer.hpp: the read cursor jumps to
the write cursor. -/
def reset (st : RingState) : RingState := { st with readIndex := st.writeIndex }

/-- available from src/native/cpp/FloatRingBuffer.hpp. -/
def available (st : RingState) : ℕ := st.writeIndex - st.readIndex

/-- freeSpace from src/native/cpp/FloatRingBuffer.hpp. -/
def freeSpace (st : RingState) : ℕ := st.capacity - (st.writeIndex - st.readIndex)

/-- Reachable describes every state a FloatRingBuffer can be in: freshly
constructed, or the result of any write, read or reset on a reachable state. -/
inductive Reachable : RingState → Prop
  | init (capacityFrames : ℕ) : Reachable (mkRing capacityFrames)
  | wr (st : RingState) (data : Option (List ℚ)) (frames : ℕ) :
      Reachable st → Reachable (write st data frames).2
  | rd (st : RingState) (dstNull : Bool) (frames : ℕ) :
      Reachable st → Reachable (read st dstNull frames).2.2
  | rs (st : RingState) : Reachable st → Reachable (reset st)

/-- RingInv is the structural invariant of reachable ring states: the capacity
is a power of two, the mask is capacity - 1, and the cursor difference lies in
[0, capacity]. -/
def RingInv (st : RingState) : Prop :=
  (∃ k, st.capacity = 2 ^ k) ∧ st.mask = st.capacity - 1 ∧
    st.readIndex ≤ st.writeIndex ∧ st.writeIndex ≤ st.readIndex + st.capacity

end Ring

namespace Ctrl

/-- ControllerState models the observable fields of the PitchDetector object
in src/android/app/src/main/cpp/PitchDetector.cpp: the running flag, the
configuration (analysisFrameCount, hopFrameCount, threshold), the sample rate
taken from the opened stream, whether a stream and a detector are currently
held, and the accumulator fill count. -/
structure ControllerState where
  running : Bool
  analysisFrameCount : ℤ
  hopFrameCount : ℤ
  threshold : ℚ
  sampleRate : ℚ
  hasStream : Bool
  hasDetector : Bool
  accumulatorSize : ℤ
deriving DecidableEq

/-- initialController carries the member initializers of PitchDetector:
running false, analysisFrameCount 2048, hopFrameCount 1024, threshold 0.15,
sampleRate 48000, no stream, no detector, empty accumulator. -/
def initialController : ControllerState :=
  ⟨false, 2048, 1024, 3 / 20, 48000, false, false, 0⟩

/-- clampQ is std::clamp on doubles. -/
def clampQ (v lo hi : ℚ) : ℚ := min (max v lo) hi

/-- start from src/android/app/src/main/cpp/PitchDetector.cpp.  The external
oboe acquisition is abstracted by two booleans: openOk is whether
builder.openStream succeeds, startOk whether stream->requestStart succeeds,
and streamRate is the sample rate reported by the opened stream.  The source
first overwrites the configuration fields, then attempts to open the stream
(on failure the stream handle is cleared and false is returned), then
constructs a fresh detector and clears the accumulator, then requests start
(on failure the stream is closed and cleared and false is returned), and only
then sets running. -/
def start (st : ControllerState) (bufferSize : ℤ) (threshold : ℚ)
    (openOk startOk : Bool) (streamRate : ℚ) : Bool × ControllerState :=
  if st.running then (true, st)
  else
    let fc := max 256 bufferSize
    let st1 := { st with
      analysisFrameCount := fc
      hopFrameCount := max (fc / 2) 1
      threshold := clampQ threshold (1 / 1000) (999 / 1000) }
    if !openOk then (false, { st1 with hasStream := false })
    else
      let st2 := { st1 with
        hasStream := true
        sampleRate := streamRate
        hasDetector := true
        accumulatorSize := 0 }
      if !startOk then (false, { st2 with hasStream := false })
      else (true, { st2 with running := true })

/-- ingest models the accumulation loop of onAudioReady in
src/android/app/src/main/cpp/PitchDetector.cpp, with the estimator call
abstracted by est (the detector is assumed present, as it is whenever the
stream is running).  The accumulator is the filled prefix of m_accumulator
(length = m_accumulatorSize); each loop iteration copies
min(analysisFrameCount - accumulatorSize, framesRemaining) samples, then
either dispatches a full frame (keeping the trailing analysisFrameCount -
hopFrameCount samples when hopFrameCount < analysisFrameCount, clearing
otherwise) and loops, or breaks.  The positivity of fc and hop
(analysisFrameCount is clamped to at least 256 and hopFrameCount to
max(analysisFrameCount / 2, 1) at the call site) is what makes the source
loop terminate, and is taken in the form of two arguments. -/
def ingest {α : Type} (fc hop : ℕ) (hfc : 0 < fc) (hpos : 0 < hop) (est : List ℚ → α) :
    List ℚ → List ℚ → List ℚ × List α
  | acc, input =>
    if hinput : input = [] then (acc, [])
    else
      if hfull : fc ≤ (acc ++ input.take (min (fc - acc.length) input.length)).length then
        let out := est (acc ++ input.take (min (fc - acc.length) input.length))
        let next := ingest fc hop hfc hpos est
          (if hop < fc then
            (acc ++ input.take (min (fc - acc.length) input.length)).drop hop
           else [])
          (input.drop (min (fc - acc.length) input.length))
        (next.1, out :: next.2)
      else (acc ++ input.take (min (fc - acc.length) input.length), [])
  termination_by acc input => 2 * input.length + acc.length
  decreasing_by
    have hlen : 0 < input.length := List.length_pos.mpr hinput
    simp only [List.length_append, List.length_take] at hfull
    split
    all_goals simp only [List.length_drop, List.length_append, List.length_take,
      List.length_nil]
    all_goals omega

/-- ingestMany feeds a sequence of sample chunks to ingest one after the
other, threading the accumulator and concatenating the emitted results, the
way successive onAudioReady callbacks do. -/
def ingestMany {α : Type} (fc hop : ℕ) (hfc : 0 < fc) (hpos : 0 < hop) (est : List ℚ → α)
    (acc : List ℚ) (chunks : List (List ℚ)) : List ℚ × List α :=
  chunks.foldl
    (fun state chunk =>
      let next := ingest fc hop hfc hpos est state.1 chunk
      (next.1, state.2 ++ next.2))
    (acc, [])

end Ctrl

section Claim1

/-- foldl of successive additions over List.range equals the Finset.range sum. -/
theorem foldl_add_range (f : ℕ → ℚ) : ∀ (n : ℕ) (s : ℚ),
    List.foldl (fun a i => a + f i) s (List.range n) = s + ∑ i in Finset.range n, f i := by
  intro n
  induction n with
  | zero => intro s; simp
  | succ n ih =>
    intro s
    rw [List.range_succ, List.foldl_append, Finset.sum_range_succ, ih]
    simp [add_assoc]

/-- The inner loop of computeDifference accumulates the spec sum of squared
differences. -/
theorem difference_eq_sum (x : List ℚ) (N τ : ℕ) (h : τ ≠ 0) :
    Cpp.difference x N τ =
      ∑ i in Finset.range (N - τ), (x.getD i 0 - x.getD (i + τ) 0) ^ 2 := by
  unfold Cpp.difference
  rw [if_neg h]
  have hfold := foldl_add_range
    (fun i => (x.getD i 0 - x.getD (i + τ) 0) * (x.getD i 0 - x.getD (i + τ) 0)) (N - τ) 0
  simp only [zero_add] at hfold
  rw [show (fun (sum : ℚ) (i : ℕ) =>
        let delta := x.getD i 0 - x.getD (i + τ) 0
        sum + delta * delta) =
      (fun (a : ℚ) (i : ℕ) => a + (x.getD i 0 - x.getD (i + τ) 0) * (x.getD i 0 - x.getD (i + τ) 0))
    from rfl]
  rw [hfold]
  exact Finset.sum_congr rfl (fun i _ => by ring)

/-- runningSum unfolding at a successor. -/
theorem runningSum_succ (d : ℕ → ℚ) (τ : ℕ) :
    Cpp.runningSum d (τ + 1) = Cpp.runningSum d τ + d (τ + 1) := rfl

/-- The incrementally maintained runningSum equals the interval sum of the
difference values from lag 1 to lag τ. -/
theorem runningSum_eq_Icc (d : ℕ → ℚ) : ∀ τ : ℕ,
    Cpp.runningSum d τ = ∑ k in Finset.Icc 1 τ, d k := by
  intro τ
  induction τ with
  | zero => simp [Cpp.runningSum]
  | succ τ ih =>
    rw [runningSum_succ, ih, Finset.sum_Icc_succ_top (by omega : 1 ≤ τ + 1)]

/-- The cumulative mean normalized difference at lag 1 is always 1: the
running sum there is exactly d(1), so the quotient collapses. -/
theorem cumulative_one (d : ℕ → ℚ) : Cpp.cumulative d 1 = 1 := by
  have h1 : Cpp.runningSum d 1 = d 1 := by
    rw [show (1 : ℕ) = 0 + 1 from rfl, runningSum_succ]
    simp [Cpp.runningSum]
  by_cases hd : d 1 = 0
  · simp [Cpp.cumulative, h1, hd]
  · simp only [Cpp.cumulative, h1, if_neg hd, if_neg (by omega : ¬(1 : ℕ) = 0)]
    push_cast
    field_simp

/-- C1: for a frame of at least bufferSize samples, processBuffer computes the
difference buffer with d(0) = 0 and, for each lag τ in [1, maxLag = N / 2],
d(τ) equal to the sum over i in [0, N - τ - 1] of (x[i] - x[i + τ]) squared,
and the cumulative buffer with value 1 at lag 0 and, for τ in [1, maxLag] with
running sum S(τ) the sum of d(1)..d(τ), value 1 when S(τ) = 0 and
d(τ) * τ / S(τ) otherwise.  Stated about the difference and cumulative stages
(Cpp.difference, Cpp.cumulative) that Cpp.processBuffer evaluates on its
samples whenever the guards pass. -/
theorem spec2proof_C1 (x : List ℚ) (N τ : ℕ) (h1 : 1 ≤ τ) (h2 : τ ≤ N / 2) :
    Cpp.difference x N 0 = 0 ∧
    Cpp.cumulative (Cpp.difference x N) 0 = 1 ∧
    Cpp.difference x N τ =
      ∑ i in Finset.range (N - τ), (x.getD i 0 - x.getD (i + τ) 0) ^ 2 ∧
    ((∑ k in Finset.Icc 1 τ, Cpp.difference x N k) = 0 →
      Cpp.cumulative (Cpp.difference x N) τ = 1) ∧
    ((∑ k in Finset.Icc 1 τ, Cpp.difference x N k) ≠ 0 →
      Cpp.cumulative (Cpp.difference x N) τ =
        Cpp.difference x N τ * (τ : ℚ) / ∑ k in Finset.Icc 1 τ, Cpp.difference x N k) := by
  refine ⟨by simp [Cpp.difference], by simp [Cpp.cumulative],
    difference_eq_sum x N τ (by omega), ?_, ?_⟩
  · intro hS
    simp only [Cpp.cumulative, runningSum_eq_Icc, hS, if_true, if_pos rfl]
    simp [show ¬τ = 0 by omega]
  · intro hS
    simp only [Cpp.cumulative, runningSum_eq_Icc, if_neg hS]
    simp [show ¬τ = 0 by omega, if_neg hS]

/-- Witness for C1 at the concrete frame [1, 0, 2, 0] with N = 4 and τ = 2:
the hypotheses hold and the difference value matches the spec sum, which both
evaluate to 1. -/
theorem spec2proof_C1_witness :
    (1 ≤ 2 ∧ 2 ≤ 4 / 2) ∧
    Cpp.difference [1, 0, 2, 0] 4 2 =
      ∑ i in Finset.range (4 - 2),
        (([1, 0, 2, 0] : List ℚ).getD i 0 - ([1, 0, 2, 0] : List ℚ).getD (i + 2) 0) ^ 2 :=
  ⟨⟨by norm_num, by norm_num⟩,
    (spec2proof_C1 [1, 0, 2, 0] 4 2 (by norm_num) (by norm_num)).2.2.1⟩

end Claim1

section Claims3and4

/-- The two copies of the difference stage are token-identical. -/
theorem difference_copies_eq (x : List ℚ) (N τ : ℕ) :
    Dsp.difference x N τ = Cpp.difference x N τ := rfl

/-- The two copies of the incremental running sum agree. -/
theorem runningSum_copies_eq (d : ℕ → ℚ) : ∀ τ : ℕ,
    Dsp.runningSum d τ = Cpp.runningSum d τ := by
  intro τ
  induction τ with
  | zero => rfl
  | succ τ ih => simp [Dsp.runningSum, Cpp.runningSum, ih]

/-- The two copies of the cumulative normalization agree. -/
theorem cumulative_copies_eq (d : ℕ → ℚ) (τ : ℕ) :
    Dsp.cumulative d τ = Cpp.cumulative d τ := by
  simp [Dsp.cumulative, Cpp.cumulative, runningSum_copies_eq]

/-- The two copies of the local-minimum descent agree. -/
theorem descendAux_copies_eq (c : ℕ → ℚ) : ∀ (fuel τ : ℕ),
    Dsp.descendAux c τ fuel = Cpp.descendAux c τ fuel := by
  intro fuel
  induction fuel with
  | zero => intro τ; rfl
  | succ fuel ih =>
    intro τ
    simp only [Dsp.descendAux, Cpp.descendAux]
    split
    · exact ih (τ + 1)
    · rfl

/-- The two copies of the threshold scan agree. -/
theorem searchAux_copies_eq (c : ℕ → ℚ) (thr : ℚ) (L : ℕ) : ∀ (fuel τ : ℕ),
    Dsp.searchAux c thr L τ fuel = Cpp.searchAux c thr L τ fuel := by
  intro fuel
  induction fuel with
  | zero => intro τ; rfl
  | succ fuel ih =>
    intro τ
    simp only [Dsp.searchAux, Cpp.searchAux]
    split
    · rw [descendAux_copies_eq]
    · exact ih (τ + 1)

/-- The two copies of the fallback minimum scan agree. -/
theorem minAux_copies_eq (c : ℕ → ℚ) : ∀ (fuel τ cand : ℕ) (mv : Option ℚ),
    Dsp.minAux c τ cand mv fuel = Cpp.minAux c τ cand mv fuel := by
  intro fuel
  induction fuel with
  | zero => intro τ cand mv; rfl
  | succ fuel ih =>
    intro τ cand mv
    match mv with
    | none => simp only [Dsp.minAux, Cpp.minAux]; exact ih (τ + 1) τ (some (c τ))
    | some m =>
      simp only [Dsp.minAux, Cpp.minAux]
      split
      · exact ih (τ + 1) τ (some (c τ))
      · exact ih (τ + 1) cand (some m)

/-- The two copies of absoluteThreshold agree on every cumulative buffer. -/
theorem absoluteThreshold_copies_eq (c : ℕ → ℚ) (thr : ℚ) (L : ℕ) :
    Dsp.absoluteThreshold c thr L = Cpp.absoluteThreshold c thr L := by
  unfold Dsp.absoluteThreshold Cpp.absoluteThreshold
  rw [searchAux_copies_eq, minAux_copies_eq]

end Claims3and4

/-- C3 counterexample: the claim asserts that every valid detection reports
the chromatic name with the octave appended, in particular that a 440 Hz
detection (rounded midi 69) reports the noteName A4.  The copy in
src/native/cpp/YinPitchDetector.cpp reports the bare chromatic name A for
rounded midi 69, not A4. -/
theorem spec2proof_C3_counterexample :
    Cpp.noteNameFromMidi 69 = "A" ∧ ("A" : String) ≠ "A4" := by
  constructor
  · decide
  · decide

/-- C3 amended: for every detection whose rounded midi value is nonnegative
(which covers every audible pitch, midi 0 being about 8.18 Hz), the dsp copy
reports the chromatic name selected by ((round(midi) mod 12) + 12) mod 12,
which equals the mathematical residue round(midi) mod 12, with the octave
round(midi) / 12 - 1 appended (truncating division, equal to the floor for
nonnegative midi), so a 440 Hz detection reports A4 there; the cpp copy
reports only the chromatic name, with no octave appended. -/
theorem spec2proof_C3 (m : ℤ) (hm : 0 ≤ m) :
    Dsp.noteNameFromMidi m =
      Dsp.kNoteNames.getD (m % 12).toNat emptyString ++ toString (m / 12 - 1) ∧
    Cpp.noteNameFromMidi m = Cpp.NOTE_NAMES.getD (m % 12).toNat emptyString := by
  have hge : 0 ≤ m % 12 := Int.emod_nonneg m (by norm_num)
  have hlt : m % 12 < 12 := Int.emod_lt_of_pos m (by norm_num)
  have h1 : m.tmod 12 = m % 12 := Int.tmod_eq_emod hm (by norm_num)
  have h2 : (m % 12 + 12).tmod 12 = (m % 12 + 12) % 12 :=
    Int.tmod_eq_emod (by omega) (by norm_num)
  have h3 : (m % 12 + 12) % 12 = m % 12 := by omega
  have h4 : (m % 12).tmod 12 = m % 12 := Int.tmod_eq_of_lt hge hlt
  have h5 : m.tdiv 12 = m / 12 := Int.tdiv_eq_ediv hm (by norm_num)
  constructor
  · show Dsp.kNoteNames.getD ((m.tmod 12 + 12).tmod 12).toNat emptyString ++
      toString (m.tdiv 12 - 1) = _
    rw [h1, h2, h3, h5]
  · show Cpp.NOTE_NAMES.getD (((m.tmod 12 + 12).tmod 12).tmod 12).toNat emptyString = _
    rw [h1, h2, h3, h4]

/-- Witness for C3 at rounded midi 69: the hypothesis holds, the cpp name has
no octave, and the dsp copy indeed renders A4. -/
theorem spec2proof_C3_witness :
    (0 ≤ (69 : ℤ)) ∧
    Cpp.noteNameFromMidi 69 = Cpp.NOTE_NAMES.getD ((69 : ℤ) % 12).toNat emptyString ∧
    Dsp.noteNameFromMidi 69 = "A4" :=
  ⟨by decide, (spec2proof_C3 69 (by decide)).2, by decide⟩

/-- C4 counterexample: the two YinPitchDetector copies do not return identical
PitchResult values.  At rounded midi 69 (a 440 Hz detection) their noteName
fields differ (A versus A4), and on a cumulative buffer whose interpolation
denominator is 1 / 10 ^ 13 the refined lags differ (the cpp copy treats any
denominator of magnitude below 1 / 10 ^ 12 as flat and returns the raw lag,
the dsp copy only a denominator exactly 0). -/
theorem spec2proof_C4_counterexample :
    Cpp.noteNameFromMidi 69 ≠ Dsp.noteNameFromMidi 69 ∧
    Cpp.parabolicInterpolation (fun τ => if τ = 0 then 1 / 10 ^ 13 else 0) 3 1 = 1 ∧
    Dsp.parabolicInterpolation (fun τ => if τ = 0 then 1 / 10 ^ 13 else 0) 3 1 = 3 / 2 := by
  refine ⟨by decide, ?_, ?_⟩
  · show (if (1 : ℕ) = 0 ∨ 1 + 1 ≥ 3 then ((1 : ℕ) : ℚ)
      else if |(1 : ℚ) / 10 ^ 13 - 2 * 0 + 0| < 1 / 10 ^ 12 then ((1 : ℕ) : ℚ)
      else ((1 : ℕ) : ℚ) + (1 / 10 ^ 13 - 0) / (2 * (1 / 10 ^ 13 - 2 * 0 + 0))) = 1
    rw [if_neg (by omega), if_pos (by rw [abs_of_pos (by norm_num)]; norm_num)]
    norm_num
  · show (if (1 : ℕ) = 0 ∨ 1 ≥ 3 - 1 then ((1 : ℕ) : ℚ)
      else if (1 : ℚ) / 10 ^ 13 + 0 - 2 * 0 = 0 then ((1 : ℕ) : ℚ)
      else ((1 : ℕ) : ℚ) + 1 / 2 * (1 / 10 ^ 13 - 0) / (1 / 10 ^ 13 + 0 - 2 * 0)) = 3 / 2
    rw [if_neg (by omega), if_neg (by norm_num)]
    norm_num

/-- C4 amended: the difference, cumulative-normalization and lag-search stages
of the two copies agree on all inputs, and the parabolic refinements agree
whenever the interpolation denominator is 0 or at least 1 / 10 ^ 12 in
magnitude; the copies drift on the refinement when the denominator lies
strictly inside that gap, and on noteName, where only the dsp copy appends the
octave. -/
theorem spec2proof_C4 :
    (∀ (x : List ℚ) (N τ : ℕ), Dsp.difference x N τ = Cpp.difference x N τ) ∧
    (∀ (d : ℕ → ℚ) (τ : ℕ), Dsp.cumulative d τ = Cpp.cumulative d τ) ∧
    (∀ (c : ℕ → ℚ) (thr : ℚ) (L : ℕ),
      Dsp.absoluteThreshold c thr L = Cpp.absoluteThreshold c thr L) ∧
    (∀ (values : ℕ → ℚ) (size τ : ℕ),
      (values (τ - 1) - 2 * values τ + values (τ + 1) = 0 ∨
        1 / 10 ^ 12 ≤ |values (τ - 1) - 2 * values τ + values (τ + 1)|) →
      Dsp.parabolicInterpolation values size τ = Cpp.parabolicInterpolation values size τ) := by
  refine ⟨difference_copies_eq, cumulative_copies_eq, absoluteThreshold_copies_eq, ?_⟩
  intro values size τ hden
  show (if τ = 0 ∨ τ ≥ size - 1 then (τ : ℚ)
      else if values (τ - 1) + values (τ + 1) - 2 * values τ = 0 then (τ : ℚ)
      else (τ : ℚ) + 1 / 2 * (values (τ - 1) - values (τ + 1)) /
        (values (τ - 1) + values (τ + 1) - 2 * values τ)) =
    (if τ = 0 ∨ τ + 1 ≥ size then (τ : ℚ)
      else if |values (τ - 1) - 2 * values τ + values (τ + 1)| < 1 / 10 ^ 12 then (τ : ℚ)
      else (τ : ℚ) + (values (τ - 1) - values (τ + 1)) /
        (2 * (values (τ - 1) - 2 * values τ + values (τ + 1))))
  have hguard : (τ = 0 ∨ τ ≥ size - 1) ↔ (τ = 0 ∨ τ + 1 ≥ size) := by omega
  have hsame : values (τ - 1) + values (τ + 1) - 2 * values τ =
      values (τ - 1) - 2 * values τ + values (τ + 1) := by ring
  by_cases hg : τ = 0 ∨ τ + 1 ≥ size
  · rw [if_pos (hguard.mpr hg), if_pos hg]
  · rw [if_neg (fun h => hg (hguard.mp h)), if_neg hg, hsame]
    rcases hden with h0 | hbig
    · rw [if_pos h0, if_pos (by rw [h0]; norm_num)]
    · have hne : values (τ - 1) - 2 * values τ + values (τ + 1) ≠ 0 := by
        intro h
        rw [h] at hbig
        norm_num at hbig
      rw [if_neg hne, if_neg (by push_neg; exact hbig)]
      field_simp

/-- Witness for C4 at the flat buffer (all zeros): the denominator is exactly
0, so the two parabolic refinements agree there. -/
theorem spec2proof_C4_witness :
    ((fun _ : ℕ => (0 : ℚ)) (1 - 1) - 2 * (fun _ : ℕ => (0 : ℚ)) 1 +
        (fun _ : ℕ => (0 : ℚ)) (1 + 1) = 0) ∧
    Dsp.parabolicInterpolation (fun _ : ℕ => (0 : ℚ)) 3 1 =
      Cpp.parabolicInterpolation (fun _ : ℕ => (0 : ℚ)) 3 1 :=
  ⟨by norm_num,
    spec2proof_C4.2.2.2 (fun _ : ℕ => (0 : ℚ)) 3 1 (Or.inl (by norm_num))⟩

/-- C10: write with a null data pointer or a zero frame count returns 0 and
returns the state unchanged (cursors and stored samples included), and read
with a null destination pointer or a zero frame count returns 0, copies
nothing and returns the state unchanged. -/
theorem spec2proof_C10 :
    (∀ (st : Ring.RingState) (frames : ℕ), Ring.write st none frames = (0, st)) ∧
    (∀ (st : Ring.RingState) (d : List ℚ), Ring.write st (some d) 0 = (0, st)) ∧
    (∀ (st : Ring.RingState) (frames : ℕ), Ring.read st true frames = (0, [], st)) ∧
    (∀ (st : Ring.RingState) (dstNull : Bool), Ring.read st dstNull 0 = (0, [], st)) := by
  refine ⟨fun st frames => rfl, fun st d => by simp [Ring.write], fun st frames => by
    simp [Ring.read], fun st dstNull => ?_⟩
  cases dstNull
  · simp [Ring.read]
  · simp [Ring.read]

/-- C9 counterexample: starting the freshly constructed controller (buffer
2048, threshold 0.15) with bufferSize 512 while stream acquisition fails
returns false and stays Stopped, but the observable configuration is not the
one from before the failed call: bufferSize() now reports 512, not 2048. -/
theorem spec2proof_C9_counterexample :
    (Ctrl.start Ctrl.initialController 512 (1 / 2) false false 48000).1 = false ∧
    (Ctrl.start Ctrl.initialController 512 (1 / 2) false false 48000).2.running = false ∧
    (Ctrl.start Ctrl.initialController 512 (1 / 2) false false 48000).2.analysisFrameCount ≠
      Ctrl.initialController.analysisFrameCount := by
  refine ⟨rfl, rfl, by decide⟩

/-- C9 amended: if start is called while Stopped and acquisition fails, start
returns false and the controller remains Stopped, but partial state is left
behind: the configuration fields keep the clamped values of the failed call
(analysisFrameCount = max(256, bufferSize), hop = max(analysisFrameCount/2, 1),
threshold clamped into (0.001, 0.999)), and when the failure happens at
requestStart rather than openStream, the freshly constructed estimator and the
cleared accumulator are retained as well. -/
theorem spec2proof_C9 (st : Ctrl.ControllerState) (bufferSize : ℤ) (threshold : ℚ)
    (startOk : Bool) (streamRate : ℚ) (h : st.running = false) :
    (Ctrl.start st bufferSize threshold false startOk streamRate).1 = false ∧
    (Ctrl.start st bufferSize threshold false startOk streamRate).2.running = false ∧
    (Ctrl.start st bufferSize threshold false startOk streamRate).2 =
      { st with
        analysisFrameCount := max 256 bufferSize
        hopFrameCount := max (max 256 bufferSize / 2) 1
        threshold := Ctrl.clampQ threshold (1 / 1000) (999 / 1000)
        hasStream := false } ∧
    (Ctrl.start st bufferSize threshold true false streamRate).1 = false ∧
    (Ctrl.start st bufferSize threshold true false streamRate).2.running = false ∧
    (Ctrl.start st bufferSize threshold true false streamRate).2 =
      { st with
        analysisFrameCount := max 256 bufferSize
        hopFrameCount := max (max 256 bufferSize / 2) 1
        threshold := Ctrl.clampQ threshold (1 / 1000) (999 / 1000)
        sampleRate := streamRate
        hasStream := false
        hasDetector := true
        accumulatorSize := 0 } := by
  refine ⟨?_, ?_, ?_, ?_, ?_, ?_⟩ <;> simp [Ctrl.start, h]

/-- Witness for C9: applying the amended theorem to the freshly constructed
controller with a requestStart failure. -/
theorem spec2proof_C9_witness :
    Ctrl.initialController.running = false ∧
    (Ctrl.start Ctrl.initialController 512 (1 / 2) true false 48000).1 = false ∧
    (Ctrl.start Ctrl.initialController 512 (1 / 2) true false 48000).2.running = false :=
  ⟨rfl,
    (spec2proof_C9 Ctrl.initialController 512 (1 / 2) false 48000 rfl).2.2.2.1,
    (spec2proof_C9 Ctrl.initialController 512 (1 / 2) false 48000 rfl).2.2.2.2.1⟩

section SearchLemmas

/-- The descent loop never moves backward and moves at most fuel steps. -/
theorem descendAux_bounds (c : ℕ → ℚ) : ∀ (fuel τ : ℕ),
    τ ≤ Cpp.descendAux c τ fuel ∧ Cpp.descendAux c τ fuel ≤ τ + fuel := by
  intro fuel
  induction fuel with
  | zero => intro τ; simp [Cpp.descendAux]
  | succ fuel ih =>
    intro τ
    simp only [Cpp.descendAux]
    split
    · have h := ih (τ + 1)
      omega
    · omega

/-- The descent loop never increases the cumulative value. -/
theorem descendAux_le (c : ℕ → ℚ) : ∀ (fuel τ : ℕ),
    c (Cpp.descendAux c τ fuel) ≤ c τ := by
  intro fuel
  induction fuel with
  | zero => intro τ; simp [Cpp.descendAux]
  | succ fuel ih =>
    intro τ
    simp only [Cpp.descendAux]
    split
    · exact le_trans (ih (τ + 1)) (le_of_lt (by assumption))
    · exact le_refl _

/-- If the descent loop stops before exhausting its fuel, the next value is
not smaller: the stop is a genuine local minimum condition. -/
theorem descendAux_stop (c : ℕ → ℚ) : ∀ (fuel τ : ℕ),
    Cpp.descendAux c τ fuel ≠ τ + fuel →
    ¬(c (Cpp.descendAux c τ fuel + 1) < c (Cpp.descendAux c τ fuel)) := by
  intro fuel
  induction fuel with
  | zero => intro τ h; simp [Cpp.descendAux] at h
  | succ fuel ih =>
    intro τ h
    by_cases hlt : c (τ + 1) < c τ
    · simp only [Cpp.descendAux, if_pos hlt] at h ⊢
      exact ih (τ + 1) (by omega)
    · simp only [Cpp.descendAux, if_neg hlt] at h ⊢
      exact hlt

/-- If the descent loop moved at all, its result is strictly below the value
one step before it. -/
theorem descendAux_moved (c : ℕ → ℚ) : ∀ (fuel τ : ℕ),
    τ < Cpp.descendAux c τ fuel →
    c (Cpp.descendAux c τ fuel) < c (Cpp.descendAux c τ fuel - 1) := by
  intro fuel
  induction fuel with
  | zero => intro τ h; simp [Cpp.descendAux] at h
  | succ fuel ih =>
    intro τ h
    simp only [Cpp.descendAux] at h ⊢
    split at h
    · rename_i hlt
      rw [if_pos hlt]
      by_cases hmove : τ + 1 < Cpp.descendAux c (τ + 1) fuel
      · exact ih (τ + 1) hmove
      · have hle := (descendAux_bounds c fuel (τ + 1)).1
        have heq : Cpp.descendAux c (τ + 1) fuel = τ + 1 := by omega
        rw [heq]
        simpa using hlt
    · rename_i hge
      rw [if_neg hge]
      omega

/-- If the scan returns a lag, there is a first lag below the threshold in the
scanned window and the returned lag is its descent. -/
theorem searchAux_some (c : ℕ → ℚ) (thr : ℚ) (L : ℕ) : ∀ (fuel τs r : ℕ),
    Cpp.searchAux c thr L τs fuel = some r →
    ∃ τ0, τs ≤ τ0 ∧ τ0 < τs + fuel ∧ c τ0 < thr ∧
      (∀ j, τs ≤ j → j < τ0 → ¬(c j < thr)) ∧
      r = Cpp.descendAux c τ0 (L - τ0) := by
  intro fuel
  induction fuel with
  | zero => intro τs r h; simp [Cpp.searchAux] at h
  | succ fuel ih =>
    intro τs r h
    simp only [Cpp.searchAux] at h
    split at h
    · rename_i hbelow
      refine ⟨τs, le_refl _, by omega, hbelow, fun j hj1 hj2 => by omega, ?_⟩
      simpa using h.symm
    · rename_i habove
      obtain ⟨τ0, h1, h2, h3, h4, h5⟩ := ih (τs + 1) r h
      refine ⟨τ0, by omega, by omega, h3, ?_, h5⟩
      intro j hj1 hj2
      rcases Nat.eq_or_lt_of_le hj1 with heq | hlt
      · rw [← heq]; exact habove
      · exact h4 j (by omega) hj2

/-- If the scan returns nothing, no lag in the scanned window is below the
threshold. -/
theorem searchAux_none (c : ℕ → ℚ) (thr : ℚ) (L : ℕ) : ∀ (fuel τs : ℕ),
    Cpp.searchAux c thr L τs fuel = none →
    ∀ j, τs ≤ j → j < τs + fuel → ¬(c j < thr) := by
  intro fuel
  induction fuel with
  | zero => intro τs h j hj1 hj2; omega
  | succ fuel ih =>
    intro τs h j hj1 hj2
    simp only [Cpp.searchAux] at h
    split at h
    · exact absurd h (by simp)
    · rename_i habove
      rcases Nat.eq_or_lt_of_le hj1 with heq | hlt
      · rw [← heq]; exact habove
      · exact ih (τs + 1) h j (by omega) (by omega)

/-- If the first lag below the threshold in the scanned window is τ0, the scan
returns exactly the descent from τ0. -/
theorem searchAux_first (c : ℕ → ℚ) (thr : ℚ) (L : ℕ) : ∀ (fuel τs τ0 : ℕ),
    τs ≤ τ0 → τ0 < τs + fuel → c τ0 < thr →
    (∀ j, τs ≤ j → j < τ0 → ¬(c j < thr)) →
    Cpp.searchAux c thr L τs fuel = some (Cpp.descendAux c τ0 (L - τ0)) := by
  intro fuel
  induction fuel with
  | zero => intro τs τ0 h1 h2; omega
  | succ fuel ih =>
    intro τs τ0 h1 h2 h3 h4
    simp only [Cpp.searchAux]
    rcases Nat.eq_or_lt_of_le h1 with heq | hlt
    · rw [← heq] at h3
      rw [if_pos h3, heq]
    · rw [if_neg (h4 τs (le_refl _) hlt)]
      exact ih (τs + 1) τ0 (by omega) (by omega) h3 (fun j hj1 hj2 => h4 j (by omega) hj2)

/-- Behaviour of the fallback loop once a finite minimum has been seen: the
tracked pair stays an argmin paired with its value, the minimum only
decreases, covers the whole remaining window, and the candidate either stays
or lies in the remaining window. -/
theorem minAux_spec (c : ℕ → ℚ) : ∀ (fuel τ cand : ℕ) (m : ℚ), c cand = m →
    ∃ cand2 m2, Cpp.minAux c τ cand (some m) fuel = (cand2, some m2) ∧
      c cand2 = m2 ∧ m2 ≤ m ∧
      (∀ j, τ ≤ j → j < τ + fuel → m2 ≤ c j) ∧
      (cand2 = cand ∨ (τ ≤ cand2 ∧ cand2 < τ + fuel)) := by
  intro fuel
  induction fuel with
  | zero =>
    intro τ cand m hm
    exact ⟨cand, m, rfl, hm, le_refl _, fun j hj1 hj2 => by omega, Or.inl rfl⟩
  | succ fuel ih =>
    intro τ cand m hm
    simp only [Cpp.minAux]
    split
    · rename_i hlt
      obtain ⟨cand2, m2, heq, hc, hle, hcov, hloc⟩ := ih (τ + 1) τ (c τ) rfl
      refine ⟨cand2, m2, heq, hc, le_trans hle (le_of_lt hlt), ?_, ?_⟩
      · intro j hj1 hj2
        rcases Nat.eq_or_lt_of_le hj1 with hj | hj
        · rw [← hj]; exact le_trans hle (le_refl _)
        · exact hcov j (by omega) (by omega)
      · rcases hloc with h | h
        · right; omega
        · right; omega
    · rename_i hge
      obtain ⟨cand2, m2, heq, hc, hle, hcov, hloc⟩ := ih (τ + 1) cand m hm
      refine ⟨cand2, m2, heq, hc, hle, ?_, ?_⟩
      · intro j hj1 hj2
        rcases Nat.eq_or_lt_of_le hj1 with hj | hj
        · rw [← hj]; push_neg at hge; exact le_trans hle hge
        · exact hcov j (by omega) (by omega)
      · rcases hloc with h | h
        · left; exact h
        · right; omega

end SearchLemmas

section ThresholdLemmas

/-- Empty search range: for maxLag below 2 both loops run zero iterations, so
the sentinel lag 0 with probability 0 is returned. -/
theorem absoluteThreshold_empty (c : ℕ → ℚ) (thr : ℚ) (L : ℕ) (hL : L < 2) :
    Cpp.absoluteThreshold c thr L = (0, 0) := by
  unfold Cpp.absoluteThreshold
  have hfuel : L + 1 - 2 = 0 := by omega
  rw [hfuel]
  rfl

/-- Threshold-hit branch: if τ0 is the first lag in [2, maxLag] whose
cumulative value is below the threshold, absoluteThreshold returns the descent
from τ0 and probability 1 minus the cumulative value there. -/
theorem absoluteThreshold_hit (c : ℕ → ℚ) (thr : ℚ) (L τ0 : ℕ)
    (h2 : 2 ≤ τ0) (hτL : τ0 ≤ L) (hbelow : c τ0 < thr)
    (hfirst : ∀ j, 2 ≤ j → j < τ0 → ¬(c j < thr)) :
    Cpp.absoluteThreshold c thr L =
      (Cpp.descendAux c τ0 (L - τ0), 1 - c (Cpp.descendAux c τ0 (L - τ0))) := by
  unfold Cpp.absoluteThreshold
  rw [searchAux_first c thr L (L + 1 - 2) 2 τ0 h2 (by omega) hbelow hfirst]

/-- Fallback branch: if no lag in [2, maxLag] is below the threshold and the
range is nonempty, absoluteThreshold returns a lag of the scanned range
achieving the global minimum of the cumulative values, with probability
1 minus that minimum. -/
theorem absoluteThreshold_fallback (c : ℕ → ℚ) (thr : ℚ) (L : ℕ) (hL : 2 ≤ L)
    (habove : ∀ j, 2 ≤ j → j ≤ L → ¬(c j < thr)) :
    ∃ τ, Cpp.absoluteThreshold c thr L = (τ, 1 - c τ) ∧ 2 ≤ τ ∧ τ ≤ L ∧
      (∀ j, 2 ≤ j → j ≤ L → c τ ≤ c j) := by
  have hnone : Cpp.searchAux c thr L 2 (L + 1 - 2) = none := by
    cases hs : Cpp.searchAux c thr L 2 (L + 1 - 2) with
    | none => rfl
    | some r =>
      obtain ⟨τ0, h1, h2', h3, _, _⟩ := searchAux_some c thr L (L + 1 - 2) 2 r hs
      exact absurd h3 (habove τ0 h1 (by omega))
  unfold Cpp.absoluteThreshold
  rw [hnone]
  have hstep : Cpp.minAux c 2 0 none (L + 1 - 2) =
      Cpp.minAux c 3 2 (some (c 2)) (L - 2) := by
    have h1 : L + 1 - 2 = (L - 2) + 1 := by omega
    rw [h1]
    rfl
  rw [hstep]
  obtain ⟨cand2, m2, heq, hc, hle, hcov, hloc⟩ := minAux_spec c (L - 2) 3 2 (c 2) rfl
  rw [heq]
  refine ⟨cand2, by rw [hc], ?_, ?_, ?_⟩
  · rcases hloc with h | h
    · omega
    · omega
  · rcases hloc with h | h
    · omega
    · omega
  · intro j hj1 hj2
    rw [hc]
    rcases Nat.eq_or_lt_of_le hj1 with hj | hj
    · rw [← hj]; exact hle
    · exact hcov j (by omega) (by omega)

end ThresholdLemmas

/-- C2: the lag search over a computed cumulative buffer returns the first
lag τ at least 2 whose value drops below the threshold, advanced along
strictly smaller successors to the local minimum (the result of the descent:
it is at least the first hit, at most maxLag, its value does not exceed the
value at the first hit, if it is not maxLag its successor is not smaller, and
if it moved its value is strictly below its predecessor), with probability
1 minus the value at the chosen lag; if no scanned lag drops below the
threshold it returns a lag achieving the global minimum over [2, maxLag] with
probability 1 minus that minimum; and if the search range is empty
(maxLag < 2) it returns the sentinel lag 0 with probability 0 and
processBuffer reports the frame invalid. -/
theorem spec2proof_C2 (c : ℕ → ℚ) (thr : ℚ) (L : ℕ) :
    (L < 2 → Cpp.absoluteThreshold c thr L = (0, 0) ∧
      (∀ (sr : ℚ) (bs : ℕ) (samples : Option (List ℚ)), bs / 2 < 2 →
        (Cpp.processBuffer sr bs thr samples).isValid = false)) ∧
    (∀ τ0, 2 ≤ τ0 → τ0 ≤ L → c τ0 < thr → (∀ j, 2 ≤ j → j < τ0 → ¬(c j < thr)) →
      ∃ τ, Cpp.absoluteThreshold c thr L = (τ, 1 - c τ) ∧
        τ0 ≤ τ ∧ τ ≤ L ∧ c τ ≤ c τ0 ∧
        (τ < L → ¬(c (τ + 1) < c τ)) ∧
        (τ0 < τ → c τ < c (τ - 1))) ∧
    ((∀ j, 2 ≤ j → j ≤ L → ¬(c j < thr)) → 2 ≤ L →
      ∃ τ, Cpp.absoluteThreshold c thr L = (τ, 1 - c τ) ∧ 2 ≤ τ ∧ τ ≤ L ∧
        (∀ j, 2 ≤ j → j ≤ L → c τ ≤ c j)) := by
  refine ⟨?_, ?_, fun habove hL => absoluteThreshold_fallback c thr L hL habove⟩
  · intro hL
    refine ⟨absoluteThreshold_empty c thr L hL, ?_⟩
    intro sr bs samples hbs
    match samples with
    | none => rfl
    | some x =>
      show (if x.length < bs ∨ bs / 2 < 2 ∨ sr ≤ 0 then Cpp.emptyOutcome
        else if (Cpp.tauProb x bs thr).1 = 0 then Cpp.emptyOutcome
        else if Cpp.refinedTau x bs thr ≤ 0 then Cpp.emptyOutcome
        else if sr / Cpp.refinedTau x bs thr ≤ 0 then Cpp.emptyOutcome
        else
          { isValid := decide (0 < (Cpp.tauProb x bs thr).2)
            frequency := sr / Cpp.refinedTau x bs thr
            probability := Cpp.clamp (Cpp.tauProb x bs thr).2 0 1 }).isValid = false
      rw [if_pos (Or.inr (Or.inl hbs))]
      rfl
  · intro τ0 h2 hτL hbelow hfirst
    refine ⟨Cpp.descendAux c τ0 (L - τ0),
      absoluteThreshold_hit c thr L τ0 h2 hτL hbelow hfirst, ?_, ?_, ?_, ?_, ?_⟩
    · exact (descendAux_bounds c (L - τ0) τ0).1
    · have := (descendAux_bounds c (L - τ0) τ0).2
      omega
    · exact descendAux_le c (L - τ0) τ0
    · intro hlt
      refine descendAux_stop c (L - τ0) τ0 ?_
      omega
    · exact descendAux_moved c (L - τ0) τ0

/-- Witness for C2 on a concrete cumulative curve with maxLag 5 and threshold
one half: the curve is 1, 1, 0.4, 0.2, 0.3, 0.1; the first lag below the
threshold is 2, the descent stops at 3 (value 0.2, successor larger). -/
theorem spec2proof_C2_witness :
    ∃ τ, Cpp.absoluteThreshold
        (fun j => if j = 2 then 2 / 5 else if j = 3 then 1 / 5
          else if j = 4 then 3 / 10 else if j = 5 then 1 / 10 else 1)
        (1 / 2) 5 =
        (τ, 1 - (fun j => if j = 2 then 2 / 5 else if j = 3 then 1 / 5
          else if j = 4 then 3 / 10 else if j = 5 then 1 / 10 else (1 : ℚ)) τ) ∧
      2 ≤ τ ∧ τ ≤ 5 ∧
      (fun j => if j = 2 then 2 / 5 else if j = 3 then 1 / 5
          else if j = 4 then 3 / 10 else if j = 5 then 1 / 10 else (1 : ℚ)) τ ≤ 2 / 5 ∧
      (τ < 5 → ¬((fun j => if j = 2 then 2 / 5 else if j = 3 then 1 / 5
          else if j = 4 then 3 / 10 else if j = 5 then 1 / 10 else (1 : ℚ)) (τ + 1) <
        (fun j => if j = 2 then 2 / 5 else if j = 3 then 1 / 5
          else if j = 4 then 3 / 10 else if j = 5 then 1 / 10 else (1 : ℚ)) τ)) ∧
      (2 < τ → (fun j => if j = 2 then 2 / 5 else if j = 3 then 1 / 5
          else if j = 4 then 3 / 10 else if j = 5 then 1 / 10 else (1 : ℚ)) τ <
        (fun j => if j = 2 then 2 / 5 else if j = 3 then 1 / 5
          else if j = 4 then 3 / 10 else if j = 5 then 1 / 10 else (1 : ℚ)) (τ - 1)) := by
  have h := (spec2proof_C2
    (fun j => if j = 2 then 2 / 5 else if j = 3 then 1 / 5
      else if j = 4 then 3 / 10 else if j = 5 then 1 / 10 else (1 : ℚ))
    (1 / 2) 5).2.1 2 (by norm_num) (by norm_num) (by norm_num)
    (fun j hj1 hj2 => by omega)
  obtain ⟨τ, heq, h1, h2, h3, h4, h5⟩ := h
  exact ⟨τ, heq, by omega, h2, by simpa using h3, h4, h5⟩

section Claim5

/-- Unfolding equation of processBuffer on a non-null frame. -/
theorem processBuffer_some (sr : ℚ) (bs : ℕ) (thr : ℚ) (x : List ℚ) :
    Cpp.processBuffer sr bs thr (some x) =
      if x.length < bs ∨ bs / 2 < 2 ∨ sr ≤ 0 then Cpp.emptyOutcome
      else if (Cpp.tauProb x bs thr).1 = 0 then Cpp.emptyOutcome
      else if Cpp.refinedTau x bs thr ≤ 0 then Cpp.emptyOutcome
      else if sr / Cpp.refinedTau x bs thr ≤ 0 then Cpp.emptyOutcome
      else
        { isValid := decide (0 < (Cpp.tauProb x bs thr).2)
          frequency := sr / Cpp.refinedTau x bs thr
          probability := Cpp.clamp (Cpp.tauProb x bs thr).2 0 1 } := rfl

/-- Unfolding equation of processBuffer on a null samples pointer. -/
theorem processBuffer_none (sr : ℚ) (bs : ℕ) (thr : ℚ) :
    Cpp.processBuffer sr bs thr none = Cpp.emptyOutcome := rfl

/-- When the lag search returns the sentinel 0, no refinement happens and the
refined lag is the cast of 0. -/
theorem refinedTau_sentinel (x : List ℚ) (bs : ℕ) (thr : ℚ)
    (h : (Cpp.tauProb x bs thr).1 = 0) : Cpp.refinedTau x bs thr = 0 := by
  simp [Cpp.refinedTau, h]

/-- C5: processBuffer never signals a hard error (it is a total function into
PitchOutcome); it returns isValid = true exactly when the samples pointer is
non-null, the frame has at least bufferSize samples, maxLag = bufferSize / 2
is at least 2, the sample rate is positive, the refined lag is positive, the
computed frequency sampleRate / refinedTau is positive (over the rationals it
is automatically finite), and the probability from the lag search is positive;
in every other case, null pointer and short frame and degenerate maxLag and
non-positive sample rate included, it returns isValid = false. -/
theorem spec2proof_C5 (sr : ℚ) (bs : ℕ) (thr : ℚ) (samples : Option (List ℚ)) :
    (Cpp.processBuffer sr bs thr samples).isValid = true ↔
      ∃ x, samples = some x ∧ bs ≤ x.length ∧ 2 ≤ bs / 2 ∧ 0 < sr ∧
        0 < Cpp.refinedTau x bs thr ∧ 0 < sr / Cpp.refinedTau x bs thr ∧
        0 < (Cpp.tauProb x bs thr).2 := by
  rcases samples with _ | x
  · rw [processBuffer_none]
    simp [Cpp.emptyOutcome]
  · rw [processBuffer_some]
    by_cases hg : x.length < bs ∨ bs / 2 < 2 ∨ sr ≤ 0
    · rw [if_pos hg]
      simp only [Cpp.emptyOutcome]
      constructor
      · intro h; exact absurd h (by simp)
      · rintro ⟨y, hy, hlen, hbs, hsr, -⟩
        injection hy with hy
        subst hy
        rcases hg with h | h | h
        · omega
        · omega
        · exact absurd hsr (not_lt.mpr h)
    · rw [if_neg hg]
      push_neg at hg
      obtain ⟨hlen, hbs, hsr⟩ := hg
      by_cases h0 : (Cpp.tauProb x bs thr).1 = 0
      · rw [if_pos h0]
        simp only [Cpp.emptyOutcome]
        constructor
        · intro h; exact absurd h (by simp)
        · rintro ⟨y, hy, -, -, -, hrt, -⟩
          injection hy with hy
          subst hy
          rw [refinedTau_sentinel x bs thr h0] at hrt
          exact absurd hrt (by norm_num)
      · rw [if_neg h0]
        by_cases hrt : Cpp.refinedTau x bs thr ≤ 0
        · rw [if_pos hrt]
          simp only [Cpp.emptyOutcome]
          constructor
          · intro h; exact absurd h (by simp)
          · rintro ⟨y, hy, -, -, -, hrt2, -⟩
            injection hy with hy
            subst hy
            exact absurd hrt2 (not_lt.mpr hrt)
        · rw [if_neg hrt]
          by_cases hfreq : sr / Cpp.refinedTau x bs thr ≤ 0
          · rw [if_pos hfreq]
            simp only [Cpp.emptyOutcome]
            constructor
            · intro h; exact absurd h (by simp)
            · rintro ⟨y, hy, -, -, -, -, hfreq2, -⟩
              injection hy with hy
              subst hy
              exact absurd hfreq2 (not_lt.mpr hfreq)
          · rw [if_neg hfreq]
            simp only [decide_eq_true_eq]
            constructor
            · intro h
              exact ⟨x, rfl, hlen, hbs, hsr, not_le.mp hrt, not_le.mp hfreq, h⟩
            · rintro ⟨y, hy, -, -, -, -, -, hprob⟩
              injection hy with hy
              subst hy
              exact hprob

end Claim5

section Claim6

/-- The parabolic refinement moves the lag by at most one half when the lag is
a genuine local minimum from the left (strictly below its predecessor, not
above its successor), so for lags at least 2 the refined lag stays positive.
The clamp to the raw lag on near-flat curvature only helps. -/
theorem parabolic_pos (v : ℕ → ℚ) (size τ : ℕ) (h2 : 2 ≤ τ)
    (hy0 : v τ < v (τ - 1)) (hy2 : ¬(v (τ + 1) < v τ)) :
    0 < Cpp.parabolicInterpolation v size τ := by
  have hτQ : (2 : ℚ) ≤ (τ : ℚ) := by exact_mod_cast h2
  show 0 < (if τ = 0 ∨ τ + 1 ≥ size then (τ : ℚ)
    else if |v (τ - 1) - 2 * v τ + v (τ + 1)| < 1 / 10 ^ 12 then (τ : ℚ)
    else (τ : ℚ) + (v (τ - 1) - v (τ + 1)) / (2 * (v (τ - 1) - 2 * v τ + v (τ + 1))))
  by_cases hg : τ = 0 ∨ τ + 1 ≥ size
  · rw [if_pos hg]; linarith
  · rw [if_neg hg]
    by_cases habs : |v (τ - 1) - 2 * v τ + v (τ + 1)| < 1 / 10 ^ 12
    · rw [if_pos habs]; linarith
    · rw [if_neg habs]
      have hy2' : v τ ≤ v (τ + 1) := not_lt.mp hy2
      have hd : 0 < v (τ - 1) - 2 * v τ + v (τ + 1) := by linarith
      have hoff : -(1 / 2 : ℚ) ≤
          (v (τ - 1) - v (τ + 1)) / (2 * (v (τ - 1) - 2 * v τ + v (τ + 1))) := by
        rw [le_div_iff (by linarith : (0 : ℚ) < 2 * (v (τ - 1) - 2 * v τ + v (τ + 1)))]
        linarith
      linarith

/-- The cumulative buffer of any frame has value 1 at lag 1. -/
theorem cumulativeOf_one (x : List ℚ) (N : ℕ) : Cpp.cumulativeOf x N 1 = 1 :=
  cumulative_one (Cpp.difference x N)

/-- If the frame passes the guards and some lag of the scanned range drops
below the threshold, processBuffer reports a valid detection: the chosen lag
is a left-strict local minimum whose value stays below the threshold, so the
probability is positive and the parabolic refinement keeps the lag positive. -/
theorem triggered_valid (sr thr : ℚ) (bs : ℕ) (x : List ℚ)
    (hthr : thr < 1)
    (hlen : ¬(x.length < bs)) (hbs : ¬(bs / 2 < 2)) (hsr : ¬(sr ≤ 0))
    (hex : ∃ j, 2 ≤ j ∧ j ≤ bs / 2 ∧ Cpp.cumulativeOf x bs j < thr) :
    (Cpp.processBuffer sr bs thr (some x)).isValid = true := by
  obtain ⟨τ0, hτ0, hτ0min⟩ := Nat.findX hex
  obtain ⟨h2τ, hτL, hbelow⟩ := hτ0
  have hfirst : ∀ j, 2 ≤ j → j < τ0 → ¬(Cpp.cumulativeOf x bs j < thr) := by
    intro j hj1 hj2 hcj
    exact hτ0min j hj2 ⟨hj1, by omega, hcj⟩
  have htauProb : Cpp.tauProb x bs thr =
      (Cpp.descendAux (Cpp.cumulativeOf x bs) τ0 (bs / 2 - τ0),
       1 - Cpp.cumulativeOf x bs (Cpp.descendAux (Cpp.cumulativeOf x bs) τ0 (bs / 2 - τ0))) :=
    absoluteThreshold_hit (Cpp.cumulativeOf x bs) thr (bs / 2) τ0 h2τ hτL hbelow hfirst
  set c := Cpp.cumulativeOf x bs with hcdef
  set L := bs / 2 with hLdef
  set τs := Cpp.descendAux c τ0 (L - τ0) with hτsdef
  have hτs_ge : τ0 ≤ τs := (descendAux_bounds c (L - τ0) τ0).1
  have hτs_le : τs ≤ L := by
    have := (descendAux_bounds c (L - τ0) τ0).2
    omega
  have hcτs : c τs ≤ c τ0 := descendAux_le c (L - τ0) τ0
  have hprob : 0 < 1 - c τs := by linarith
  have hτne : (Cpp.tauProb x bs thr).1 ≠ 0 := by
    rw [htauProb]
    simp only [Prod.fst]
    omega
  have hrt : 0 < Cpp.refinedTau x bs thr := by
    show 0 < (if 1 < (Cpp.tauProb x bs thr).1 ∧ (Cpp.tauProb x bs thr).1 < bs / 2 then
        Cpp.parabolicInterpolation (Cpp.cumulativeOf x bs) (bs / 2 + 1) (Cpp.tauProb x bs thr).1
      else ((Cpp.tauProb x bs thr).1 : ℚ))
    rw [htauProb]
    simp only [Prod.fst]
    by_cases hcase : 1 < τs ∧ τs < L
    · rw [if_pos hcase]
      refine parabolic_pos c (L + 1) τs (by omega) ?_ ?_
      · by_cases hmoved : τ0 < τs
        · exact descendAux_moved c (L - τ0) τ0 hmoved
        · have hEq : τs = τ0 := by omega
          rw [hEq]
          rcases Nat.eq_or_lt_of_le h2τ with h2' | h2'
        
          · rw [← h2']
            have hc1 : c 1 = 1 := cumulativeOf_one x bs
            have : c 2 < thr := by rw [← h2'] at hbelow; exact hbelow
            simpa [hc1] using lt_trans this hthr
          · have hge := hfirst (τ0 - 1) (by omega) (by omega)
            have : thr ≤ c (τ0 - 1) := not_lt.mp hge
            have hbelow2 : c τ0 < thr := hbelow
            calc c τ0 < thr := hbelow2
              _ ≤ c (τ0 - 1) := this
      · intro hlt
        refine descendAux_stop c (L - τ0) τ0 (by omega) hlt
    · rw [if_neg hcase]
      have : (2 : ℚ) ≤ (τs : ℚ) := by exact_mod_cast (by omega : 2 ≤ τs)
      linarith
  have hfreq : 0 < sr / Cpp.refinedTau x bs thr := div_pos (not_le.mp hsr) hrt
  rw [processBuffer_some,
    if_neg (by push_neg; exact ⟨not_lt.mp hlen, not_lt.mp hbs, not_le.mp hsr⟩),
    if_neg hτne, if_neg (not_le.mpr hrt), if_neg (not_le.mpr hfreq)]
  simp only [decide_eq_true_eq]
  rw [htauProb]
  simpa using hprob

end Claim6

/-- The refined lag depends on the threshold only through the lag search. -/
theorem refinedTau_congr (x : List ℚ) (bs : ℕ) (t1 t2 : ℚ)
    (h : Cpp.tauProb x bs t1 = Cpp.tauProb x bs t2) :
    Cpp.refinedTau x bs t1 = Cpp.refinedTau x bs t2 := by
  unfold Cpp.refinedTau
  rw [h]

/-- C6: raising the threshold within the clamp range never invalidates a
frame: if processBuffer classifies a frame valid at threshold t1, it also
classifies it valid at any t2 with t1 ≤ t2 < 0.999.  If some scanned lag drops
below t2 the search branch always yields a valid result (the chosen lag has
cumulative value below t2 < 1, hence positive probability, and the refinement
stays positive); otherwise no lag drops below t1 either and the two runs are
identical. -/
theorem spec2proof_C6 (sr : ℚ) (bs : ℕ) (samples : Option (List ℚ)) (t1 t2 : ℚ)
    (hlo : 1 / 1000 < t1) (h12 : t1 ≤ t2) (hhi : t2 < 999 / 1000)
    (hvalid : (Cpp.processBuffer sr bs t1 samples).isValid = true) :
    (Cpp.processBuffer sr bs t2 samples).isValid = true := by
  rcases samples with _ | x
  · rw [processBuffer_none] at hvalid
    exact absurd hvalid (by simp [Cpp.emptyOutcome])
  · by_cases hg : x.length < bs ∨ bs / 2 < 2 ∨ sr ≤ 0
    · rw [processBuffer_some, if_pos hg] at hvalid
      exact absurd hvalid (by simp [Cpp.emptyOutcome])
    · by_cases hex : ∃ j, 2 ≤ j ∧ j ≤ bs / 2 ∧ Cpp.cumulativeOf x bs j < t2
      · exact triggered_valid sr t2 bs x (by linarith)
          (fun h => hg (Or.inl h)) (fun h => hg (Or.inr (Or.inl h)))
          (fun h => hg (Or.inr (Or.inr h))) hex
      · have hL : 2 ≤ bs / 2 := by
          rcases Nat.lt_or_ge (bs / 2) 2 with h | h
          · exact absurd (Or.inr (Or.inl h)) hg
          · exact h
        have hnone : ∀ t : ℚ, (∀ j, 2 ≤ j → j ≤ bs / 2 → ¬(Cpp.cumulativeOf x bs j < t)) →
            Cpp.searchAux (Cpp.cumulativeOf x bs) t (bs / 2) 2 (bs / 2 + 1 - 2) = none := by
          intro t habove
          cases hs : Cpp.searchAux (Cpp.cumulativeOf x bs) t (bs / 2) 2 (bs / 2 + 1 - 2) with
          | none => rfl
          | some r =>
            obtain ⟨τ0, ha, hb, hc, -, -⟩ :=
              searchAux_some (Cpp.cumulativeOf x bs) t (bs / 2) (bs / 2 + 1 - 2) 2 r hs
            exact absurd hc (habove τ0 ha (by omega))
        have habove2 : ∀ j, 2 ≤ j → j ≤ bs / 2 → ¬(Cpp.cumulativeOf x bs j < t2) := by
          intro j hj1 hj2 hcj
          exact hex ⟨j, hj1, hj2, hcj⟩
        have habove1 : ∀ j, 2 ≤ j → j ≤ bs / 2 → ¬(Cpp.cumulativeOf x bs j < t1) := by
          intro j hj1 hj2 hcj
          exact habove2 j hj1 hj2 (lt_of_lt_of_le hcj h12)
        have htp : Cpp.tauProb x bs t1 = Cpp.tauProb x bs t2 := by
          show Cpp.absoluteThreshold (Cpp.cumulativeOf x bs) t1 (bs / 2) =
            Cpp.absoluteThreshold (Cpp.cumulativeOf x bs) t2 (bs / 2)
          unfold Cpp.absoluteThreshold
          rw [hnone t1 habove1, hnone t2 habove2]
        have heq : Cpp.processBuffer sr bs t1 (some x) = Cpp.processBuffer sr bs t2 (some x) := by
          rw [processBuffer_some, processBuffer_some, htp, refinedTau_congr x bs t1 t2 htp]
        rw [← heq]
        exact hvalid

/-- The cumulative buffer of the period-2 frame [0, 1, 0, 1] with N = 4 is 0
at lag 2: d(1) = 3, d(2) = 0, so d(2) * 2 / (d(1) + d(2)) = 0. -/
theorem witness_frame_cumulative : Cpp.cumulativeOf [0, 1, 0, 1] 4 2 = 0 := by
  have h1 : Cpp.difference [0, 1, 0, 1] 4 1 = 3 := by
    norm_num [Cpp.difference, List.range_succ]
  have h2 : Cpp.difference [0, 1, 0, 1] 4 2 = 0 := by
    norm_num [Cpp.difference, List.range_succ]
  have hrs : Cpp.runningSum (Cpp.difference [0, 1, 0, 1] 4) 2 = 3 := by
    show Cpp.runningSum _ (1 + 1) = 3
    rw [Cpp.runningSum, Cpp.runningSum, Cpp.runningSum, h1, h2]
    norm_num
  show Cpp.cumulative (Cpp.difference [0, 1, 0, 1] 4) 2 = 0
  rw [Cpp.cumulative, if_neg (by norm_num : ¬(2 : ℕ) = 0),
    if_neg (by rw [hrs]; norm_num), hrs, h2]
  norm_num

/-- The period-2 frame [0, 1, 0, 1] at 8 Hz with bufferSize 4 is classified
valid at threshold one half. -/
theorem witness_frame_valid :
    (Cpp.processBuffer 8 4 (1 / 2) (some [0, 1, 0, 1])).isValid = true := by
  refine triggered_valid 8 (1 / 2) 4 [0, 1, 0, 1] (by norm_num)
    (by norm_num) (by norm_num) (by norm_num) ⟨2, by norm_num, by norm_num, ?_⟩
  rw [witness_frame_cumulative]
  norm_num

/-- Witness for C6 on the period-2 frame [0, 1, 0, 1] at 8 Hz with bufferSize
4: the frame is valid at threshold one half and, by the theorem, also at the
raised threshold three quarters. -/
theorem spec2proof_C6_witness :
    (1 / 1000 < (1 / 2 : ℚ) ∧ (1 / 2 : ℚ) ≤ 3 / 4 ∧ (3 / 4 : ℚ) < 999 / 1000 ∧
      (Cpp.processBuffer 8 4 (1 / 2) (some [0, 1, 0, 1])).isValid = true) ∧
    (Cpp.processBuffer 8 4 (3 / 4) (some [0, 1, 0, 1])).isValid = true :=
  ⟨⟨by norm_num, by norm_num, by norm_num, witness_frame_valid⟩,
    spec2proof_C6 8 4 (some [0, 1, 0, 1]) (1 / 2) (3 / 4) (by norm_num) (by norm_num)
      (by norm_num) witness_frame_valid⟩

section Claim7

/-- The doubling loop of nextPowerOfTwo keeps the running value a power of
two. -/
theorem nptLoop_pow (value : ℕ) : ∀ (fuel v : ℕ), (∃ k, v = 2 ^ k) →
    ∃ k, Ring.nptLoop value fuel v = 2 ^ k := by
  intro fuel
  induction fuel with
  | zero => intro v hv; exact hv
  | succ fuel ih =>
    intro v hv
    simp only [Ring.nptLoop]
    split
    · refine ih (v * 2) ?_
      obtain ⟨k, hk⟩ := hv
      exact ⟨k + 1, by rw [hk]; ring⟩
    · exact hv

/-- The constructor capacity is always a power of two. -/
theorem nextPowerOfTwo_pow (value : ℕ) : ∃ k, Ring.nextPowerOfTwo value = 2 ^ k := by
  unfold Ring.nextPowerOfTwo
  exact nptLoop_pow _ _ 1 ⟨0, rfl⟩

/-- The bounded-copy count written as a conditional is the minimum. -/
theorem ite_gt_min (a b : ℕ) : (if a > b then b else a) = min a b := by
  split <;> omega

/-- Unfolding equation of write on a non-null pointer and nonzero count, with
the copy count expressed as a minimum. -/
theorem write_some (st : Ring.RingState) (d : List ℚ) (frames : ℕ) (hf : frames ≠ 0) :
    Ring.write st (some d) frames =
      if min frames (st.capacity - (st.writeIndex - st.readIndex)) = 0 then (0, st)
      else (min frames (st.capacity - (st.writeIndex - st.readIndex)),
        { st with
          buf := Ring.writeLoop st.mask st.writeIndex d st.buf
            (min frames (st.capacity - (st.writeIndex - st.readIndex)))
          writeIndex := st.writeIndex +
            min frames (st.capacity - (st.writeIndex - st.readIndex)) }) := by
  show (if frames = 0 then (0, st)
    else if (if frames > st.capacity - (st.writeIndex - st.readIndex)
        then st.capacity - (st.writeIndex - st.readIndex) else frames) = 0 then (0, st)
    else ((if frames > st.capacity - (st.writeIndex - st.readIndex)
        then st.capacity - (st.writeIndex - st.readIndex) else frames),
      { st with
        buf := Ring.writeLoop st.mask st.writeIndex d st.buf
          (if frames > st.capacity - (st.writeIndex - st.readIndex)
            then st.capacity - (st.writeIndex - st.readIndex) else frames)
        writeIndex := st.writeIndex +
          (if frames > st.capacity - (st.writeIndex - st.readIndex)
            then st.capacity - (st.writeIndex - st.readIndex) else frames) })) = _
  rw [if_neg hf, ite_gt_min]

/-- Unfolding equation of read on a non-null destination and nonzero count. -/
theorem read_some (st : Ring.RingState) (frames : ℕ) (hf : frames ≠ 0) :
    Ring.read st false frames =
      if min frames (st.writeIndex - st.readIndex) = 0 then (0, [], st)
      else (min frames (st.writeIndex - st.readIndex),
        (List.range (min frames (st.writeIndex - st.readIndex))).map
          (fun r => st.buf ((st.readIndex + r) &&& st.mask)),
        { st with readIndex := st.readIndex + min frames (st.writeIndex - st.readIndex) }) := by
  show (if (false : Bool) then (0, [], st)
    else if frames = 0 then (0, [], st)
    else if (if frames > st.writeIndex - st.readIndex
        then st.writeIndex - st.readIndex else frames) = 0 then (0, [], st)
    else ((if frames > st.writeIndex - st.readIndex
        then st.writeIndex - st.readIndex else frames),
      (List.range (if frames > st.writeIndex - st.readIndex
          then st.writeIndex - st.readIndex else frames)).map
        (fun r => st.buf ((st.readIndex + r) &&& st.mask)),
      { st with readIndex := st.readIndex +
          (if frames > st.writeIndex - st.readIndex
            then st.writeIndex - st.readIndex else frames) })) = _
  rw [if_neg (by simp), if_neg hf, ite_gt_min]

/-- A write never breaks the structural invariant. -/
theorem write_inv (st : Ring.RingState) (data : Option (List ℚ)) (frames : ℕ)
    (h : Ring.RingInv st) : Ring.RingInv (Ring.write st data frames).2 := by
  obtain ⟨hcap, hmask, hrw, hwc⟩ := h
  match data with
  | none => exact ⟨hcap, hmask, hrw, hwc⟩
  | some d =>
    by_cases hf : frames = 0
    · have heq : Ring.write st (some d) frames = (0, st) := by
        show (if frames = 0 then (0, st) else _) = (0, st)
        rw [if_pos hf]
      rw [heq]
      exact ⟨hcap, hmask, hrw, hwc⟩
    · rw [write_some st d frames hf]
      by_cases hz : min frames (st.capacity - (st.writeIndex - st.readIndex)) = 0
      · rw [if_pos hz]
        exact ⟨hcap, hmask, hrw, hwc⟩
      · rw [if_neg hz]
        refine ⟨hcap, hmask, ?_, ?_⟩
        · show st.readIndex ≤ st.writeIndex +
            min frames (st.capacity - (st.writeIndex - st.readIndex))
          omega
        · show st.writeIndex + min frames (st.capacity - (st.writeIndex - st.readIndex)) ≤
            st.readIndex + st.capacity
          omega

/-- A read never breaks the structural invariant. -/
theorem read_inv (st : Ring.RingState) (dstNull : Bool) (frames : ℕ)
    (h : Ring.RingInv st) : Ring.RingInv (Ring.read st dstNull frames).2.2 := by
  obtain ⟨hcap, hmask, hrw, hwc⟩ := h
  match dstNull with
  | true => exact ⟨hcap, hmask, hrw, hwc⟩
  | false =>
    by_cases hf : frames = 0
    · have heq : Ring.read st false frames = (0, [], st) := by
        show (if (false : Bool) then (0, [], st)
          else if frames = 0 then (0, [], st) else _) = (0, [], st)
        rw [if_neg (by simp), if_pos hf]
      rw [heq]
      exact ⟨hcap, hmask, hrw, hwc⟩
    · rw [read_some st frames hf]
      by_cases hz : min frames (st.writeIndex - st.readIndex) = 0
      · rw [if_pos hz]
        exact ⟨hcap, hmask, hrw, hwc⟩
      · rw [if_neg hz]
        refine ⟨hcap, hmask, ?_, ?_⟩
        · show st.readIndex + min frames (st.writeIndex - st.readIndex) ≤ st.writeIndex
          omega
        · show st.writeIndex ≤
            st.readIndex + min frames (st.writeIndex - st.readIndex) + st.capacity
          omega

/-- Every reachable ring state satisfies the structural invariant. -/
theorem reachable_inv (st : Ring.RingState) (h : Ring.Reachable st) : Ring.RingInv st := by
  induction h with
  | init n =>
    refine ⟨nextPowerOfTwo_pow n, rfl, le_refl _, ?_⟩
    simp [Ring.mkRing]
  | wr st1 data frames hr ih => exact write_inv st1 data frames ih
  | rd st1 dstNull frames hr ih => exact read_inv st1 dstNull frames ih
  | rs st1 hr ih =>
    obtain ⟨hcap, hmask, hrw, hwc⟩ := ih
    exact ⟨hcap, hmask, le_refl _, by simp [Ring.reset]⟩

/-- The invariant forces the counted and free frames to add up to the
capacity. -/
theorem available_add_freeSpace (st : Ring.RingState) (h : Ring.RingInv st) :
    Ring.available st + Ring.freeSpace st = st.capacity := by
  obtain ⟨-, -, hrw, hwc⟩ := h
  unfold Ring.available Ring.freeSpace
  omega

end Claim7

/-- After n writes starting at cursor start, the masked slot of write j < n
holds sample j: the masked indices of fewer than capacity consecutive writes
are pairwise distinct, so no later write of the batch overwrites an earlier
one. -/
theorem writeLoop_getD (k start : ℕ) (d : List ℚ) (buf : ℕ → ℚ) :
    ∀ n, n ≤ 2 ^ k → ∀ j, j < n →
      Ring.writeLoop (2 ^ k - 1) start d buf n ((start + j) &&& (2 ^ k - 1)) =
        d.getD j 0 := by
  intro n
  induction n with
  | zero => intro _ j hj; omega
  | succ n ih =>
    intro hn j hj
    simp only [Ring.writeLoop]
    rcases Nat.lt_succ_iff_lt_or_eq.mp hj with hj' | hj'
    · rw [if_neg ?_]
      · exact ih (by omega) j hj'
      · intro hcontra
        rw [Nat.and_pow_two_sub_one_eq_mod, Nat.and_pow_two_sub_one_eq_mod] at hcontra
        have hjn : j ≡ n [MOD 2 ^ k] := Nat.ModEq.add_left_cancel' start hcontra
        have hmod : j % 2 ^ k = n % 2 ^ k := hjn
        rw [Nat.mod_eq_of_lt (by omega), Nat.mod_eq_of_lt (by omega)] at hmod
        omega
    · rw [hj', if_pos rfl]

/-- Round trip: writing d.length samples into an empty ring and reading them
back returns exactly the written sequence. -/
theorem ring_roundtrip (st : Ring.RingState) (d : List ℚ) (hinv : Ring.RingInv st)
    (hempty : st.writeIndex = st.readIndex) (hlen : d.length ≤ st.capacity) :
    (Ring.write st (some d) d.length).1 = d.length ∧
    (Ring.read (Ring.write st (some d) d.length).2 false d.length).1 = d.length ∧
    (Ring.read (Ring.write st (some d) d.length).2 false d.length).2.1 = d := by
  obtain ⟨⟨k, hk⟩, hmask, hrw, hwc⟩ := hinv
  by_cases hd : d.length = 0
  · have hdnil : d = [] := List.length_eq_zero.mp hd
    subst hdnil
    have hw : Ring.write st (some []) ([] : List ℚ).length = (0, st) := rfl
    have hr : Ring.read st false ([] : List ℚ).length = (0, [], st) := rfl
    rw [hw, hr]
    exact ⟨rfl, rfl, rfl⟩
  · have hmin : min d.length (st.capacity - (st.writeIndex - st.readIndex)) = d.length := by
      omega
    have hw : Ring.write st (some d) d.length =
        (d.length,
         { st with
           buf := Ring.writeLoop st.mask st.writeIndex d st.buf d.length
           writeIndex := st.writeIndex + d.length }) := by
      rw [write_some st d d.length hd, hmin, if_neg hd]
    rw [hw]
    refine ⟨rfl, ?_, ?_⟩
    · show (Ring.read
        { st with
          buf := Ring.writeLoop st.mask st.writeIndex d st.buf d.length
          writeIndex := st.writeIndex + d.length } false d.length).1 = d.length
      rw [read_some _ d.length hd]
      have hdiff : ({ st with
          buf := Ring.writeLoop st.mask st.writeIndex d st.buf d.length
          writeIndex := st.writeIndex + d.length } : Ring.RingState).writeIndex -
          ({ st with
            buf := Ring.writeLoop st.mask st.writeIndex d st.buf d.length
            writeIndex := st.writeIndex + d.length } : Ring.RingState).readIndex =
          d.length := by
        show st.writeIndex + d.length - st.readIndex = d.length
        omega
      rw [hdiff, min_self, if_neg hd]
    · show (Ring.read
        { st with
          buf := Ring.writeLoop st.mask st.writeIndex d st.buf d.length
          writeIndex := st.writeIndex + d.length } false d.length).2.1 = d
      rw [read_some _ d.length hd]
      have hdiff : ({ st with
          buf := Ring.writeLoop st.mask st.writeIndex d st.buf d.length
          writeIndex := st.writeIndex + d.length } : Ring.RingState).writeIndex -
          ({ st with
            buf := Ring.writeLoop st.mask st.writeIndex d st.buf d.length
            writeIndex := st.writeIndex + d.length } : Ring.RingState).readIndex =
          d.length := by
        show st.writeIndex + d.length - st.readIndex = d.length
        omega
      rw [hdiff, min_self, if_neg hd]
      show (List.range d.length).map
          (fun r => Ring.writeLoop st.mask st.writeIndex d st.buf d.length
            ((st.readIndex + r) &&& st.mask)) = d
      refine List.ext_getElem (by simp) ?_
      intro i h1 h2
      have hi : i < d.length := by simpa using h1
      simp only [List.getElem_map, List.getElem_range]
      rw [hmask, hk, ← hempty]
      rw [writeLoop_getD k st.writeIndex d st.buf d.length (by omega) i hi]
      exact List.getD_eq_getElem d 0 hi

/-- Oversized writes copy exactly the free space and report that count, and
they advance the write cursor by exactly that count while leaving the read
cursor alone. -/
theorem ring_overflow (st : Ring.RingState) (d : List ℚ) (frames : ℕ)
    (hover : Ring.freeSpace st < frames) :
    (Ring.write st (some d) frames).1 = Ring.freeSpace st ∧
    (Ring.write st (some d) frames).2.writeIndex = st.writeIndex + Ring.freeSpace st ∧
    (Ring.write st (some d) frames).2.readIndex = st.readIndex := by
  have hf : frames ≠ 0 := by
    unfold Ring.freeSpace at hover
    omega
  have hmin : min frames (st.capacity - (st.writeIndex - st.readIndex)) =
      Ring.freeSpace st := by
    unfold Ring.freeSpace
    unfold Ring.freeSpace at hover
    omega
  rw [write_some st d frames hf, hmin]
  by_cases hz : Ring.freeSpace st = 0
  · rw [if_pos hz]
    refine ⟨hz.symm, ?_, rfl⟩
    show st.writeIndex = st.writeIndex + Ring.freeSpace st
    omega
  · rw [if_neg hz]
    exact ⟨rfl, rfl, rfl⟩

/-- C7: writing N samples, 0 <= N <= capacity, into an empty FloatRingBuffer
and immediately reading N samples returns exactly the written sequence in
order; a write larger than the current free space copies exactly the free
space and returns that count (advancing the write cursor by that amount and
leaving unread data alone); and in every reachable state
available() + freeSpace() = capacity. -/
theorem spec2proof_C7 :
    (∀ st : Ring.RingState, Ring.Reachable st →
      Ring.RingInv st ∧ Ring.available st + Ring.freeSpace st = st.capacity) ∧
    (∀ (st : Ring.RingState) (d : List ℚ), Ring.RingInv st →
      st.writeIndex = st.readIndex → d.length ≤ st.capacity →
      (Ring.write st (some d) d.length).1 = d.length ∧
      (Ring.read (Ring.write st (some d) d.length).2 false d.length).1 = d.length ∧
      (Ring.read (Ring.write st (some d) d.length).2 false d.length).2.1 = d) ∧
    (∀ (st : Ring.RingState) (d : List ℚ) (frames : ℕ), Ring.freeSpace st < frames →
      (Ring.write st (some d) frames).1 = Ring.freeSpace st ∧
      (Ring.write st (some d) frames).2.writeIndex = st.writeIndex + Ring.freeSpace st ∧
      (Ring.write st (some d) frames).2.readIndex = st.readIndex) :=
  ⟨fun st h =>
    ⟨reachable_inv st h, available_add_freeSpace st (reachable_inv st h)⟩,
   fun st d hinv hempty hlen => ring_roundtrip st d hinv hempty hlen,
   fun st d frames hover => ring_overflow st d frames hover⟩

/-- Witness for C7 on a freshly constructed ring of capacity 4 and the sample
sequence [1, 2, 3]: the reachability and emptiness hypotheses hold by
construction and the round trip reproduces the sequence. -/
theorem spec2proof_C7_witness :
    (Ring.available (Ring.mkRing 4) + Ring.freeSpace (Ring.mkRing 4) =
      (Ring.mkRing 4).capacity) ∧
    (Ring.write (Ring.mkRing 4) (some [1, 2, 3]) 3).1 = 3 ∧
    (Ring.read (Ring.write (Ring.mkRing 4) (some [1, 2, 3]) 3).2 false 3).2.1 =
      [1, 2, 3] := by
  have hreach : Ring.Reachable (Ring.mkRing 4) := Ring.Reachable.init 4
  have hinv := (spec2proof_C7.1 (Ring.mkRing 4) hreach).1
  have hcap : (Ring.mkRing 4).capacity = 4 := by decide
  have hrt := spec2proof_C7.2.1 (Ring.mkRing 4) [1, 2, 3] hinv rfl
    (by rw [hcap]; norm_num)
  exact ⟨(spec2proof_C7.1 (Ring.mkRing 4) hreach).2,
    by simpa using hrt.1, by simpa using hrt.2.2⟩

section Claim8

/-- Ingesting an empty chunk leaves the accumulator alone and emits nothing. -/
theorem ingest_nil {α : Type} (fc hop : ℕ) (hfc : 0 < fc) (hpos : 0 < hop)
    (est : List ℚ → α) (acc : List ℚ) :
    Ctrl.ingest fc hop hfc hpos est acc [] = (acc, []) := by
  rw [Ctrl.ingest]
  rw [dif_pos rfl]

/-- Unfolding of one loop iteration that completes a frame: copy, dispatch,
then continue on the retained accumulator and the remaining input. -/
theorem ingest_dispatch {α : Type} (fc hop : ℕ) (hfc : 0 < fc) (hpos : 0 < hop)
    (est : List ℚ → α) (acc input : List ℚ) (h1 : input ≠ [])
    (h2 : fc ≤ (acc ++ input.take (min (fc - acc.length) input.length)).length) :
    Ctrl.ingest fc hop hfc hpos est acc input =
      ((Ctrl.ingest fc hop hfc hpos est
          (if hop < fc then
            (acc ++ input.take (min (fc - acc.length) input.length)).drop hop
           else [])
          (input.drop (min (fc - acc.length) input.length))).1,
        est (acc ++ input.take (min (fc - acc.length) input.length)) ::
        (Ctrl.ingest fc hop hfc hpos est
          (if hop < fc then
            (acc ++ input.take (min (fc - acc.length) input.length)).drop hop
           else [])
          (input.drop (min (fc - acc.length) input.length))).2) := by
  conv_lhs => rw [Ctrl.ingest]
  rw [dif_neg h1, dif_pos h2]

/-- Unfolding of one loop iteration that does not complete a frame: the input
is absorbed into the accumulator and the loop breaks. -/
theorem ingest_fill {α : Type} (fc hop : ℕ) (hfc : 0 < fc) (hpos : 0 < hop)
    (est : List ℚ → α) (acc input : List ℚ) (h1 : input ≠ [])
    (h2 : ¬(fc ≤ (acc ++ input.take (min (fc - acc.length) input.length)).length)) :
    Ctrl.ingest fc hop hfc hpos est acc input =
      (acc ++ input.take (min (fc - acc.length) input.length), []) := by
  conv_lhs => rw [Ctrl.ingest]
  rw [dif_neg h1, dif_neg h2]

/-- A chunk that fits in the current frame without completing it can be moved
into the accumulator before the rest of the input. -/
theorem ingest_absorb {α : Type} (fc hop : ℕ) (hfc : 0 < fc) (hpos : 0 < hop)
    (est : List ℚ → α) (acc c1 c2 : List ℚ) (hns : acc.length + c1.length < fc) :
    Ctrl.ingest fc hop hfc hpos est acc (c1 ++ c2) =
      Ctrl.ingest fc hop hfc hpos est (acc ++ c1) c2 := by
  by_cases hc1 : c1 = []
  · subst hc1
    rw [List.nil_append, List.append_nil]
  by_cases hc2 : c2 = []
  · subst hc2
    rw [List.append_nil]
    have ht : min (fc - acc.length) c1.length = c1.length := by omega
    have hfull : ¬(fc ≤ (acc ++ c1.take (min (fc - acc.length) c1.length)).length) := by
      rw [ht, List.take_length]
      simp only [List.length_append]
      omega
    rw [ingest_fill fc hop hfc hpos est acc c1 hc1 hfull, ht, List.take_length, ingest_nil]
  · have hc12 : c1 ++ c2 ≠ [] := fun h => hc1 (List.append_eq_nil.mp h).1
    have hlen1 : 0 < c1.length := List.length_pos.mpr hc1
    have hlen2 : 0 < c2.length := List.length_pos.mpr hc2
    by_cases hbig : fc - acc.length ≤ c1.length + c2.length
    · have htL : min (fc - acc.length) (c1 ++ c2).length = fc - acc.length := by
        simp only [List.length_append]
        omega
      have htake : (c1 ++ c2).take (fc - acc.length) =
          c1 ++ c2.take (fc - acc.length - c1.length) := by
        rw [List.take_append_eq_append_take, List.take_of_length_le (by omega)]
      have hdrop : (c1 ++ c2).drop (fc - acc.length) =
          c2.drop (fc - acc.length - c1.length) := by
        rw [List.drop_append_eq_append_drop, List.drop_eq_nil_of_le (by omega),
          List.nil_append]
      have hfullL : fc ≤
          (acc ++ (c1 ++ c2).take (min (fc - acc.length) (c1 ++ c2).length)).length := by
        rw [htL, htake]
        simp only [List.length_append, List.length_take]
        omega
      have htR : min (fc - (acc ++ c1).length) c2.length =
          fc - acc.length - c1.length := by
        simp only [List.length_append]
        omega
      have hfullR : fc ≤
          ((acc ++ c1) ++ c2.take (min (fc - (acc ++ c1).length) c2.length)).length := by
        rw [htR]
        simp only [List.length_append, List.length_take]
        omega
      rw [ingest_dispatch fc hop hfc hpos est acc (c1 ++ c2) hc12 hfullL,
        ingest_dispatch fc hop hfc hpos est (acc ++ c1) c2 hc2 hfullR,
        htL, htR, htake, hdrop, ← List.append_assoc]
    · push_neg at hbig
      have htL : min (fc - acc.length) (c1 ++ c2).length = (c1 ++ c2).length := by
        simp only [List.length_append]
        omega
      have hfullL : ¬(fc ≤
          (acc ++ (c1 ++ c2).take (min (fc - acc.length) (c1 ++ c2).length)).length) := by
        rw [htL, List.take_length]
        simp only [List.length_append]
        omega
      rw [ingest_fill fc hop hfc hpos est acc (c1 ++ c2) hc12 hfullL, htL, List.take_length]
      have htR : min (fc - (acc ++ c1).length) c2.length = c2.length := by
        simp only [List.length_append]
        omega
      have hfullR : ¬(fc ≤
          ((acc ++ c1) ++ c2.take (min (fc - (acc ++ c1).length) c2.length)).length) := by
        rw [htR, List.take_length]
        simp only [List.length_append]
        omega
      rw [ingest_fill fc hop hfc hpos est (acc ++ c1) c2 hc2 hfullR, htR, List.take_length,
        List.append_assoc]

/-- Ingesting c1 ++ c2 equals ingesting c1 and then c2 from the resulting
accumulator, with the emitted results concatenated: chunk boundaries are
invisible to the accumulation loop. -/
theorem ingest_append {α : Type} (fc hop : ℕ) (hfc : 0 < fc) (hpos : 0 < hop)
    (est : List ℚ → α) (c2 : List ℚ) :
    ∀ (n : ℕ) (acc c1 : List ℚ), 2 * c1.length + acc.length ≤ n →
      Ctrl.ingest fc hop hfc hpos est acc (c1 ++ c2) =
        ((Ctrl.ingest fc hop hfc hpos est
            (Ctrl.ingest fc hop hfc hpos est acc c1).1 c2).1,
          (Ctrl.ingest fc hop hfc hpos est acc c1).2 ++
            (Ctrl.ingest fc hop hfc hpos est
              (Ctrl.ingest fc hop hfc hpos est acc c1).1 c2).2) := by
  intro n
  induction n using Nat.strong_induction_on with
  | _ n ih =>
    intro acc c1 hn
    by_cases hc1 : c1 = []
    · subst hc1
      rw [List.nil_append, ingest_nil]
      show Ctrl.ingest fc hop hfc hpos est acc c2 =
        ((Ctrl.ingest fc hop hfc hpos est acc c2).1,
          [] ++ (Ctrl.ingest fc hop hfc hpos est acc c2).2)
      rw [List.nil_append]
    · by_cases hA : fc - acc.length ≤ c1.length
      · have hlen1 : 0 < c1.length := List.length_pos.mpr hc1
        have hc12 : c1 ++ c2 ≠ [] := fun h => hc1 (List.append_eq_nil.mp h).1
        have htL : min (fc - acc.length) (c1 ++ c2).length = fc - acc.length := by
          simp only [List.length_append]
          omega
        have htR : min (fc - acc.length) c1.length = fc - acc.length := min_eq_left hA
        have htake : (c1 ++ c2).take (fc - acc.length) = c1.take (fc - acc.length) := by
          rw [List.take_append_eq_append_take, Nat.sub_eq_zero_of_le hA, List.take_zero,
            List.append_nil]
        have hdrop : (c1 ++ c2).drop (fc - acc.length) =
            c1.drop (fc - acc.length) ++ c2 := by
          rw [List.drop_append_eq_append_drop, Nat.sub_eq_zero_of_le hA, List.drop_zero]
        have hfullL : fc ≤
            (acc ++ (c1 ++ c2).take (min (fc - acc.length) (c1 ++ c2).length)).length := by
          rw [htL, htake]
          simp only [List.length_append, List.length_take]
          omega
        have hfullR : fc ≤ (acc ++ c1.take (min (fc - acc.length) c1.length)).length := by
          rw [htR]
          simp only [List.length_append, List.length_take]
          omega
        rw [ingest_dispatch fc hop hfc hpos est acc (c1 ++ c2) hc12 hfullL,
          ingest_dispatch fc hop hfc hpos est acc c1 hc1 hfullR,
          htL, htR, htake, hdrop]
        have hmeas : 2 * (c1.drop (fc - acc.length)).length +
            (if hop < fc then
              (acc ++ c1.take (fc - acc.length)).drop hop
             else ([] : List ℚ)).length < n := by
          by_cases hh : hop < fc
          · rw [if_pos hh]
            simp only [List.length_drop, List.length_append, List.length_take]
            omega
          · rw [if_neg hh]
            simp only [List.length_drop, List.length_nil]
            omega
        have hstep := ih
          (2 * (c1.drop (fc - acc.length)).length +
            (if hop < fc then
              (acc ++ c1.take (fc - acc.length)).drop hop
             else ([] : List ℚ)).length)
          hmeas
          (if hop < fc then
            (acc ++ c1.take (fc - acc.length)).drop hop
           else [])
          (c1.drop (fc - acc.length))
          (le_refl _)
        rw [hstep]
        simp only [List.cons_append]
    
      · push_neg at hA
        have hns : acc.length + c1.length < fc := by omega
        rw [ingest_absorb fc hop hfc hpos est acc c1 c2 hns]
        have hinner : Ctrl.ingest fc hop hfc hpos est acc c1 = (acc ++ c1, []) := by
          have ht : min (fc - acc.length) c1.length = c1.length := by omega
          have hfull : ¬(fc ≤ (acc ++ c1.take (min (fc - acc.length) c1.length)).length) := by
            rw [ht, List.take_length]
            simp only [List.length_append]
            omega
          rw [ingest_fill fc hop hfc hpos est acc c1 hc1 hfull, ht, List.take_length]
        rw [hinner]
        show Ctrl.ingest fc hop hfc hpos est (acc ++ c1) c2 =
          ((Ctrl.ingest fc hop hfc hpos est (acc ++ c1) c2).1,
            [] ++ (Ctrl.ingest fc hop hfc hpos est (acc ++ c1) c2).2)
        rw [List.nil_append]

/-- The chunk fold threads the accumulator and appends outputs: starting with
pending outputs just prefixes them. -/
theorem ingestFold_out {α : Type} (fc hop : ℕ) (hfc : 0 < fc) (hpos : 0 < hop)
    (est : List ℚ → α) :
    ∀ (cs : List (List ℚ)) (a : List ℚ) (outs : List α),
      cs.foldl
        (fun state chunk =>
          let next := Ctrl.ingest fc hop hfc hpos est state.1 chunk
          (next.1, state.2 ++ next.2)) (a, outs) =
      ((cs.foldl
          (fun state chunk =>
            let next := Ctrl.ingest fc hop hfc hpos est state.1 chunk
            (next.1, state.2 ++ next.2)) (a, [])).1,
        outs ++ (cs.foldl
          (fun state chunk =>
            let next := Ctrl.ingest fc hop hfc hpos est state.1 chunk
            (next.1, state.2 ++ next.2)) (a, [])).2) := by
  intro cs
  induction cs with
  | nil => intro a outs; simp
  | cons c cs ih =>
    intro a outs
    rw [List.foldl_cons, List.foldl_cons]
    show cs.foldl _ ((Ctrl.ingest fc hop hfc hpos est a c).1,
        outs ++ (Ctrl.ingest fc hop hfc hpos est a c).2) = _
    rw [ih ((Ctrl.ingest fc hop hfc hpos est a c).1)
      (outs ++ (Ctrl.ingest fc hop hfc hpos est a c).2)]
    conv_rhs =>
      rw [ih ((Ctrl.ingest fc hop hfc hpos est a c).1)
        ([] ++ (Ctrl.ingest fc hop hfc hpos est a c).2)]
    simp [List.append_assoc]

/-- Feeding the chunks one by one is the same as feeding their concatenation
in one call: same final accumulator, same results in the same order. -/
theorem ingestMany_flatten {α : Type} (fc hop : ℕ) (hfc : 0 < fc) (hpos : 0 < hop)
    (est : List ℚ → α) :
    ∀ (chunks : List (List ℚ)) (acc : List ℚ),
      Ctrl.ingestMany fc hop hfc hpos est acc chunks =
        Ctrl.ingest fc hop hfc hpos est acc chunks.flatten := by
  intro chunks
  induction chunks with
  | nil =>
    intro acc
    show (acc, []) = Ctrl.ingest fc hop hfc hpos est acc [].flatten
    rw [List.flatten_nil, ingest_nil]
  | cons c cs ih =>
    intro acc
    show List.foldl _ ((Ctrl.ingest fc hop hfc hpos est acc c).1,
        [] ++ (Ctrl.ingest fc hop hfc hpos est acc c).2) cs = _
    rw [ingestFold_out]
    have hmany : (cs.foldl
        (fun state chunk =>
          let next := Ctrl.ingest fc hop hfc hpos est state.1 chunk
          (next.1, state.2 ++ next.2))
        ((Ctrl.ingest fc hop hfc hpos est acc c).1, [])) =
        Ctrl.ingestMany fc hop hfc hpos est (Ctrl.ingest fc hop hfc hpos est acc c).1 cs := rfl
    rw [hmany, ih]
    rw [List.flatten_cons]
    rw [ingest_append fc hop hfc hpos est cs.flatten
      (2 * c.length + acc.length) acc c (le_refl _)]
    rw [List.nil_append]

/-- After a dispatch that exactly completes the frame, the loop retains the
trailing fc - hop samples (shifted to the front) when hop < fc, and clears the
accumulator otherwise. -/
theorem ingest_retention {α : Type} (fc hop : ℕ) (hfc : 0 < fc) (hpos : 0 < hop)
    (est : List ℚ → α) (acc input : List ℚ)
    (hsum : acc.length + input.length = fc) (hne : input ≠ []) :
    Ctrl.ingest fc hop hfc hpos est acc input =
      ((if hop < fc then (acc ++ input).drop hop else []), [est (acc ++ input)]) := by
  have ht : min (fc - acc.length) input.length = input.length := by omega
  have htake : input.take (min (fc - acc.length) input.length) = input := by
    rw [ht, List.take_length]
  have hfull : fc ≤ (acc ++ input.take (min (fc - acc.length) input.length)).length := by
    rw [htake]
    simp only [List.length_append]
    omega
  have hdropnil : input.drop (min (fc - acc.length) input.length) = [] := by
    rw [ht]
    exact List.drop_eq_nil_of_le (le_refl _)
  rw [ingest_dispatch fc hop hfc hpos est acc input hne hfull, htake, hdropnil, ingest_nil]

/-- C8: delivering a total sample sequence to the accumulation loop of
onAudioReady in arbitrary chunks produces exactly the same final accumulator
and the same sequence of estimator results (on the same absolute sample
boundaries) as delivering it in one chunk; and whenever a dispatch completes
a frame, the loop retains the trailing analysisFrameCount - hopFrameCount
samples shifted to the front, or clears the buffer when the hop is not
smaller than the frame (in the controller hop = max(frame / 2, 1), so
retention applies). -/
theorem spec2proof_C8 {α : Type} :
    (∀ (fc hop : ℕ) (hfc : 0 < fc) (hpos : 0 < hop) (est : List ℚ → α)
      (chunks : List (List ℚ)) (acc : List ℚ),
      Ctrl.ingestMany fc hop hfc hpos est acc chunks =
        Ctrl.ingest fc hop hfc hpos est acc chunks.flatten) ∧
    (∀ (fc hop : ℕ) (hfc : 0 < fc) (hpos : 0 < hop) (est : List ℚ → α)
      (acc input : List ℚ), acc.length + input.length = fc → input ≠ [] →
      Ctrl.ingest fc hop hfc hpos est acc input =
        ((if hop < fc then (acc ++ input).drop hop else []), [est (acc ++ input)])) :=
  ⟨fun fc hop hfc hpos est chunks acc => ingestMany_flatten fc hop hfc hpos est chunks acc,
   fun fc hop hfc hpos est acc input hsum hne =>
    ingest_retention fc hop hfc hpos est acc input hsum hne⟩

/-- Witness for C8 with frame size 2 and hop 1: feeding [1], [2], [3] one
chunk at a time equals feeding [1, 2, 3] at once, and a frame-completing
dispatch retains the trailing sample. -/
theorem spec2proof_C8_witness :
    (Ctrl.ingestMany 2 1 (Nat.succ_pos 1) (Nat.succ_pos 0)
        (fun l : List ℚ => l.length) [] [[1], [2], [3]] =
      Ctrl.ingest 2 1 (Nat.succ_pos 1) (Nat.succ_pos 0)
        (fun l : List ℚ => l.length) [] [[1], [2], [3]].flatten) ∧
    (([5] : List ℚ).length + ([7] : List ℚ).length = 2) ∧
    (Ctrl.ingest 2 1 (Nat.succ_pos 1) (Nat.succ_pos 0)
        (fun l : List ℚ => l.length) [5] [7] =
      ((if 1 < 2 then (([5] : List ℚ) ++ [7]).drop 1 else []),
        [(([5] : List ℚ) ++ [7]).length])) :=
  ⟨(@spec2proof_C8 ℕ).1 2 1 (Nat.succ_pos 1) (Nat.succ_pos 0)
      (fun l : List ℚ => l.length) [[1], [2], [3]] [],
   by norm_num,
   (@spec2proof_C8 ℕ).2 2 1 (Nat.succ_pos 1) (Nat.succ_pos 0)
      (fun l : List ℚ => l.length) [5] [7] (by norm_num) (by norm_num)⟩

end Claim8
